import Mathlib

/-!
Verification of the electron-ipc service registry, RPC dispatch and
event-delivery subsystem, shallowly embedded from the TypeScript sources
(src/channels.ts, src/main.ts, src/ipc-service.ts, src/renderer.ts,
src/preload.cjs).  Machine integers play no role; service and method
names are strings, listener identities are natural numbers naming the
JavaScript closures, and the mutable module state of each component is
threaded explicitly.
-/

namespace ElectronIPC

/-! ### String containment, modelling JavaScript `String.prototype.includes` -/

/-- Boolean contiguous-substring test on character lists, the model of
JavaScript `haystack.includes(needle)`. -/
def hasSub (hay needle : List Char) : Bool :=
  needle.isPrefixOf hay ||
    match hay with
    | [] => false
    | _ :: t => hasSub t needle

/-- JavaScript `s.includes(sub)` on strings. -/
def strIncludes (s sub : String) : Bool :=
  hasSub s.data sub.data

/-- Propositional form of substring containment: `sub` occurs contiguously
inside `s`. -/
def strContains (s sub : String) : Prop :=
  sub.data <:+: s.data

instance (s sub : String) : Decidable (strContains s sub) := by
  unfold strContains; infer_instance

/-! ### Channel naming (src/channels.ts) -/

def IPC_NAMESPACE : String := "electron-ipc"

def SERVICE_EXISTS_CHANNEL : String := IPC_NAMESPACE ++ ":service:exists"

def serviceInvokeChannel (serviceName : String) : String :=
  IPC_NAMESPACE ++ ":service:" ++ serviceName ++ ":invoke"

def serviceEventChannel (serviceName eventName : String) : String :=
  IPC_NAMESPACE ++ ":service:" ++ serviceName ++ ":event:" ++ eventName

/-! ### Values and thrown errors -/

/-- A closed universe of JavaScript values, enough to exercise method
arguments, results and event payloads concretely. -/
inductive Value where
  | str : String → Value
  | num : Nat → Value
  | unit : Value
deriving DecidableEq

/-- A thrown JavaScript value: either an `Error` carrying a `.message`, or
any other value together with its deterministic `String(value)` rendering. -/
inductive Thrown where
  | jsError (msg : String)
  | nonError (stringified : String)
deriving DecidableEq

/-- The `.message` of `asError(error)` from src/main.ts: an `Error` keeps its
message, anything else becomes `new Error(String(error))`. -/
def asErrorMessage : Thrown → String
  | .jsError m => m
  | .nonError s => s

/-- Message built by `missingMethodError` in src/main.ts. -/
def missingMethodError (serviceName methodName : String) : String :=
  "[electron-ipc] Service \"" ++ serviceName ++ "\" has no callable method \"" ++
    methodName ++ "\""

/-- Message built by `methodCallError` in src/main.ts. -/
def methodCallError (serviceName methodName : String) (error : Thrown) : String :=
  "[electron-ipc] Service \"" ++ serviceName ++ "\" method \"" ++ methodName ++
    "\" failed: " ++ asErrorMessage error

/-- `RESERVED_METHOD_NAMES` from src/main.ts. -/
def RESERVED_METHOD_NAMES : List String :=
  ["on", "off", "once", "emit", "setEmitHook", "constructor"]

/-! ### The per-service invoke-channel handler (src/main.ts) -/

/-- Outcome of running a service method body: a resolved value or a thrown
value (covering both synchronous throws and rejected promises, which the
handler awaits uniformly). -/
inductive InvokeResult where
  | ok (v : Value)
  | thrown (t : Thrown)

/-- A property of a service instance as seen by `service[methodName]`:
either a function (with its runtime behaviour) or a non-callable value. -/
inductive PropEntry where
  | method (run : List Value → InvokeResult)
  | dataProp (v : Value)

/-- A service instance, abstracted as its property table (own and inherited
properties together, as JavaScript property lookup sees them). -/
structure ServiceInstance where
  props : String → Option PropEntry

/-- Result of one run of the invoke-channel handler, instrumented with
whether the looked-up property was actually applied. -/
structure HandlerOutcome where
  result : Except String Value
  invokedMethod : Bool

/-- The handler installed by `createIPCService` on `serviceInvokeChannel`
(src/main.ts lines 80–98): reserved names are rejected first, then the
property is looked up and rejected unless it is a function; a function is
applied and a throw/rejection is wrapped by `methodCallError`. -/
def handleInvoke (serviceName : String) (service : ServiceInstance)
    (methodName : String) (args : List Value) : HandlerOutcome :=
  if methodName ∈ RESERVED_METHOD_NAMES then
    ⟨.error (missingMethodError serviceName methodName), false⟩
  else
    match service.props methodName with
    | some (.method run) =>
      match run args with
      | .ok v => ⟨.ok v, true⟩
      | .thrown t => ⟨.error (methodCallError serviceName methodName t), true⟩
    | some (.dataProp _) => ⟨.error (missingMethodError serviceName methodName), false⟩
    | none => ⟨.error (missingMethodError serviceName methodName), false⟩

/-! ### The service registry (src/main.ts) -/

/-- What the registry observes about a resolved service instance: whether it
extends `IPCService` (and hence receives the broadcasting emit hook). -/
structure ServiceSpec where
  isEmitter : Bool
deriving DecidableEq

/-- The first argument of `createIPCService`: a zero-argument constructor or
an instance; `ctorName` is `ctor.name` resp. `instance.constructor.name`. -/
inductive ServiceArg where
  | fromCtor (ctorName : String) (builds : ServiceSpec)
  | fromInstance (ctorName : String) (inst : ServiceSpec)

/-- The module-level mutable state of src/main.ts together with the
externally visible effects performed through the injected dependencies:
channels passed to `ipcMain.handle` / `ipcMain.on`, instances whose emit
hook was bound, and the number of constructor instantiations performed. -/
structure RegistryState where
  registeredServices : List (String × ServiceSpec)
  serviceExistsListenerBound : Bool
  invokeHandlers : List String
  existsListenerChannels : List String
  hooksInstalled : List String
  constructions : Nat
deriving DecidableEq

/-- `registeredServices.has name`. -/
def registryHas (st : RegistryState) (name : String) : Bool :=
  (st.registeredServices.map Prod.fst).contains name

/-- Name resolution of `createIPCService`: the explicit name if given, else
the constructor's (or the instance type's) declared name. -/
def resolvedServiceName : ServiceArg → Option String → String
  | _, some explicitName => explicitName
  | .fromCtor ctorName _, none => ctorName
  | .fromInstance ctorName _, none => ctorName

/-- The duplicate-registration message thrown by `createIPCService`. -/
def alreadyRegisteredMsg (resolvedName : String) : String :=
  "[electron-ipc] Service \"" ++ resolvedName ++ "\" is already registered"

/-- `createIPCService(serviceOrCtor, serviceName?, deps)` from src/main.ts,
with dependencies injected (so dependency resolution cannot fail), returning
the updated module state and the synchronously thrown error message, if any.
Statement order mirrors the source: the duplicate check precedes the
constructor call, the table insertion, the hook binding, the invoke-handler
installation and the one-time exists-listener binding. -/
def createIPCService (arg : ServiceArg) (explicitName : Option String)
    (st : RegistryState) : RegistryState × Option String :=
  let resolvedName := resolvedServiceName arg explicitName
  if registryHas st resolvedName then
    (st, some (alreadyRegisteredMsg resolvedName))
  else
    let (service, st₁) :=
      match arg with
      | .fromCtor _ builds => (builds, { st with constructions := st.constructions + 1 })
      | .fromInstance _ inst => (inst, st)
    let st₂ := { st₁ with registeredServices := st₁.registeredServices ++ [(resolvedName, service)] }
    let st₃ :=
      if service.isEmitter then
        { st₂ with hooksInstalled := st₂.hooksInstalled ++ [resolvedName] }
      else st₂
    let st₄ := { st₃ with invokeHandlers := st₃.invokeHandlers ++ [serviceInvokeChannel resolvedName] }
    let st₅ :=
      if st₄.serviceExistsListenerBound then st₄
      else
        { st₄ with
            existsListenerChannels := st₄.existsListenerChannels ++ [SERVICE_EXISTS_CHANNEL],
            serviceExistsListenerBound := true }
    (st₅, none)

/-! ### The event emitter core (src/ipc-service.ts)

Listeners are JavaScript closures; we name them with natural numbers.  A
base listener's behaviour is given by an environment: a list of emitter
operations its body performs (possibly re-entrant `emit` calls), plus
whether the body then throws.  `once` wrappers are allocated fresh
identifiers and remembered in a wrapper table, mirroring the closure
created inside `IPCService.once`.  Nesting of re-entrant emissions is
bounded by explicit fuel; exhausted fuel skips the nested call, which only
ever truncates pathological unbounded recursion. -/

/-- One emitter operation appearing in a listener's body. -/
inductive Cmd where
  | addOn (ev : String) (l : Nat)
  | addOnce (ev : String) (l : Nat)
  | remove (ev : String) (l : Nat)
  | reEmit (ev : String) (p : Value)

/-- The body of a base listener: operations performed in order, then an
optional terminal throw. -/
structure Behavior where
  cmds : List Cmd
  throwsAfter : Bool

/-- Assignment of behaviours to base listener identifiers. -/
abbrev Env := Nat → Behavior

/-- The emit hook slot. `broadcast s` is the hook bound by the registry for
a service registered under name `s` (it broadcasts on the derived event
channel and does not throw); `raising` is a hook whose invocation throws. -/
inductive Hook where
  | broadcast (serviceName : String)
  | raising
deriving DecidableEq

/-- Read a listener set from the `Map`-of-`Set`s table (`[]` if absent). -/
def tableGet (t : List (String × List Nat)) (ev : String) : List Nat :=
  match t.find? (fun p => p.1 == ev) with
  | some p => p.2
  | none => []

/-- Write a listener set: replace the existing entry in place, else append a
new key (JavaScript `Map.set` key order). -/
def tableSet : List (String × List Nat) → String → List Nat →
    List (String × List Nat)
  | [], ev, ids => [(ev, ids)]
  | (k, v) :: rest, ev, ids =>
    if k == ev then (ev, ids) :: rest else (k, v) :: tableSet rest ev ids

/-- Delete a key from the table (JavaScript `Map.delete`). -/
def tableRemoveKey (t : List (String × List Nat)) (ev : String) :
    List (String × List Nat) :=
  t.filter (fun p => p.1 != ev)

/-- JavaScript `Set.add`: append if absent. -/
def setAdd (l : List Nat) (x : Nat) : List Nat :=
  if x ∈ l then l else l ++ [x]

/-- State of one `IPCService` emitter, instrumented with an invocation log
and the hook's broadcast log. -/
structure EmitterState where
  listenerTable : List (String × List Nat)
  wrapperMeta : List (Nat × String × Nat)
  nextId : Nat
  hook : Option Hook
  calls : List (Nat × Value)
  broadcasts : List (String × Value)
deriving DecidableEq

/-- A fresh emitter whose next closure identifier is `n`. -/
def initEmitter (n : Nat) : EmitterState :=
  ⟨[], [], n, none, [], []⟩

/-- `IPCService.on`: add to the event's set (creating it on demand). -/
def onOp (st : EmitterState) (ev : String) (l : Nat) : EmitterState :=
  { st with listenerTable := tableSet st.listenerTable ev (setAdd (tableGet st.listenerTable ev) l) }

/-- `IPCService.off`: delete the listener; drop the event's entry when the
set becomes empty.  Has no failure path, mirroring the source. -/
def offOp (st : EmitterState) (ev : String) (l : Nat) : EmitterState :=
  match st.listenerTable.find? (fun p => p.1 == ev) with
  | none => st
  | some (_, ids) =>
    let ids' := ids.filter (fun x => x ≠ l)
    if ids'.isEmpty then { st with listenerTable := tableRemoveKey st.listenerTable ev }
    else { st with listenerTable := tableSet st.listenerTable ev ids' }

/-- `IPCService.once`: allocate the self-removing wrapper closure, remember
its event and wrapped listener, and register it via `on`. -/
def onceOp (st : EmitterState) (ev : String) (inner : Nat) : EmitterState :=
  let w := st.nextId
  let st' := { st with
    nextId := st.nextId + 1,
    wrapperMeta := st.wrapperMeta ++ [(w, ev, inner)] }
  onOp st' ev w

/-- Look up whether an identifier names a `once` wrapper. -/
def wrapperLookup (st : EmitterState) (l : Nat) : Option (String × Nat) :=
  (st.wrapperMeta.find? (fun p => p.1 == l)).map (fun p => p.2)

/-- The body of a listener as a state transformer, stratified by nesting
fuel.  `runCmdsWith nested` executes a listener body's operations in order;
a re-entrant `emit` runs through `nested` (absent once the fuel for nesting
is exhausted, in which case the nested call is skipped — this only ever
truncates unboundedly recursive listener behaviours); an escaping error
from a nested emission's hook aborts the rest of the body. -/
def runCmdsWith
    (nested : Option (EmitterState → String → Value →
      EmitterState × Bool × List (Nat × Value))) :
    EmitterState → List Cmd → EmitterState × Bool
  | st, [] => (st, false)
  | st, .addOn ev l :: rest => runCmdsWith nested (onOp st ev l) rest
  | st, .addOnce ev l :: rest => runCmdsWith nested (onceOp st ev l) rest
  | st, .remove ev l :: rest => runCmdsWith nested (offOp st ev l) rest
  | st, .reEmit ev p :: rest =>
    match nested with
    | none => runCmdsWith none st rest
    | some emitN =>
      let (st₁, escaped, _) := emitN st ev p
      if escaped then (st₁, true) else runCmdsWith (some emitN) st₁ rest

/-- Invoke one listener closure with a payload, logging the invocation.
A `once` wrapper first removes itself via `off`, then calls the wrapped
closure through `nestedInvoke` (one level deeper); a base listener runs its
body via `runC`.  The returned flag reports whether the closure threw. -/
def invokeLWith
    (nestedInvoke : Option (EmitterState → Nat → Value → EmitterState × Bool))
    (runC : EmitterState → List Cmd → EmitterState × Bool) (env : Env)
    (st : EmitterState) (l : Nat) (p : Value) : EmitterState × Bool :=
  let st₀ := { st with calls := st.calls ++ [(l, p)] }
  match wrapperLookup st₀ l with
  | some (ev, inner) =>
    let st₁ := offOp st₀ ev l
    match nestedInvoke with
    | none => (st₁, false)
    | some inv => inv st₁ inner p
  | none =>
    let b := env l
    let (st₁, aborted) := runC st₀ b.cmds
    (st₁, aborted || b.throwsAfter)

/-- The emission loop over the snapshot: each listener runs inside
try/catch, so its throw flag is dropped and the loop continues.  The second
component records the invocations performed directly by this loop. -/
def emitFanWith (inv : EmitterState → Nat → Value → EmitterState × Bool) :
    EmitterState → List Nat → Value → EmitterState × List (Nat × Value)
  | st, [], _ => (st, [])
  | st, l :: rest, p =>
    let (st₁, _threw) := inv st l p
    let (st₂, direct) := emitFanWith inv st₁ rest p
    (st₂, (l, p) :: direct)

/-- `IPCService.emit`: snapshot the event's set (`[...listeners]`), fan out
over the snapshot, then invoke the hook — which is outside any try/catch in
the source, so a raising hook escapes; the middle component is that
escape. -/
def emitOpWith (fan : EmitterState → List Nat → Value →
    EmitterState × List (Nat × Value))
    (st : EmitterState) (ev : String) (p : Value) :
    EmitterState × Bool × List (Nat × Value) :=
  let snapshot := tableGet st.listenerTable ev
  let (st₁, direct) := fan st snapshot p
  match st₁.hook with
  | none => (st₁, false, direct)
  | some (.broadcast serviceName) =>
    ({ st₁ with broadcasts := st₁.broadcasts ++ [(serviceEventChannel serviceName ev, p)] },
     false, direct)
  | some .raising => (st₁, true, direct)

/-- The emitter's `emit` and single-listener invocation at one fuel
level. -/
structure LevelFns where
  emitOpF : EmitterState → String → Value → EmitterState × Bool × List (Nat × Value)
  invokeLF : EmitterState → Nat → Value → EmitterState × Bool

/-- Tie the stratified semantics together by recursion on the nesting
fuel: level `f + 1` handles one more level of re-entrant emission (and of
`once`-wrapper delegation) than level `f`. -/
def levelFns (env : Env) : Nat → LevelFns
  | 0 =>
    let runC := runCmdsWith none
    let inv := fun st l p => invokeLWith none runC env st l p
    { emitOpF := fun st ev p => emitOpWith (emitFanWith inv) st ev p
      invokeLF := inv }
  | f + 1 =>
    let deeper := levelFns env f
    let runC := runCmdsWith (some deeper.emitOpF)
    let inv := fun st l p => invokeLWith (some deeper.invokeLF) runC env st l p
    { emitOpF := fun st ev p => emitOpWith (emitFanWith inv) st ev p
      invokeLF := inv }

/-- `IPCService.emit` with nesting fuel: resulting state, whether the call
escaped with an error (possible only through the hook), and the invocations
performed directly by this emission's own loop. -/
def emitOp (fuel : Nat) (env : Env) (st : EmitterState) (ev : String) (p : Value) :
    EmitterState × Bool × List (Nat × Value) :=
  (levelFns env fuel).emitOpF st ev p

/-- `IPCService.setEmitHook`. -/
def setEmitHookOp (st : EmitterState) (h : Option Hook) : EmitterState :=
  { st with hook := h }

/-- A top-level emitter operation performed by application code. -/
inductive EOp where
  | eOn (ev : String) (l : Nat)
  | eOnce (ev : String) (l : Nat)
  | eOff (ev : String) (l : Nat)
  | eEmit (ev : String) (p : Value)
  | eSetHook (h : Option Hook)

/-- Apply one top-level operation. -/
def runEOp (fuel : Nat) (env : Env) (st : EmitterState) : EOp → EmitterState
  | .eOn ev l => onOp st ev l
  | .eOnce ev l => onceOp st ev l
  | .eOff ev l => offOp st ev l
  | .eEmit ev p => (emitOp fuel env st ev p).1
  | .eSetHook h => setEmitHookOp st h

/-- Apply a sequence of top-level operations. -/
def runEOps (fuel : Nat) (env : Env) (st : EmitterState) : List EOp → EmitterState
  | [] => st
  | op :: rest => runEOps fuel env (runEOp fuel env st op) rest

/-- Number of invocations of listener `w` recorded in a call log. -/
def countCalls (w : Nat) (calls : List (Nat × Value)) : Nat :=
  (calls.filter (fun c => c.1 == w)).length

/-! ### The renderer-side resolver (src/renderer.ts) -/

/-- `normalizeInvokeError` from src/renderer.ts: an `Error` whose message
already mentions both the service and the method passes through unchanged;
anything else is wrapped in a message naming both. -/
def normalizeInvokeError (serviceName methodName : String) (error : Thrown) : String :=
  match error with
  | .jsError msg =>
    if strIncludes msg serviceName && strIncludes msg methodName then msg
    else
      "[electron-ipc] Service \"" ++ serviceName ++ "\" method \"" ++ methodName ++
        "\" failed: " ++ msg
  | .nonError s =>
    "[electron-ipc] Service \"" ++ serviceName ++ "\" method \"" ++ methodName ++
      "\" failed: " ++ s

/-- The bridge object exposed under the well-known global key: its
synchronous existence query and the behaviour of its `invoke` operation
(resolved value or rejection). -/
structure BridgeModel where
  hasServiceFn : String → Bool
  invokeResult : String → String → List Value → Except Thrown Value

/-- Message thrown by `getBridge` when no bridge is installed. -/
def notEnabledMsg : String :=
  "[electron-ipc] IPC bridge is not enabled. Call enableIPC() in preload first."

/-- Message thrown by `resolveIPC` for an unregistered service. -/
def notRegisteredMsg (serviceName : String) : String :=
  "[electron-ipc] Service \"" ++ serviceName ++ "\" is not registered"

/-- `resolveIPC(serviceName)` from src/renderer.ts: read the global bridge
slot (throwing synchronously when absent), query `hasService` synchronously,
throw synchronously when it is false, and otherwise return the proxy, here
represented by the service name its closures capture.  `Except.error` models
a synchronous throw, not a rejected promise. -/
def resolveIPC (bridgeSlot : Option BridgeModel) (serviceName : String) :
    Except String String :=
  match bridgeSlot with
  | none => .error notEnabledMsg
  | some bridge =>
    if bridge.hasServiceFn serviceName then .ok serviceName
    else .error (notRegisteredMsg serviceName)

/-- A method call through the resolved proxy: forward to `bridge.invoke`
and rewrite a rejection through `normalizeInvokeError`.  The existence query
plays no part here. -/
def proxyInvoke (bridge : BridgeModel) (serviceName methodName : String)
    (args : List Value) : Except String Value :=
  match bridge.invokeResult serviceName methodName args with
  | .ok v => .ok v
  | .error e => .error (normalizeInvokeError serviceName methodName e)

/-! ### The resolved proxy's subscription bookkeeping (src/renderer.ts)

A resolved proxy owns `listenersByEvent` and `unsubscribeByEvent`; each
`bridge.on` call creates one transport subscription, modelled as a fresh
token recorded in `activeRemote`, whose unsubscribe closure removes exactly
that token.  Local listeners are closures named by naturals; a delivered
event fans out over a snapshot with per-listener try/catch; a listener body
may re-enter `on`/`once`/`off` on the same proxy. -/

/-- One proxy operation appearing in a local listener's body. -/
inductive PCmd where
  | pOn (ev : String) (l : Nat)
  | pOnce (ev : String) (l : Nat)
  | pOff (ev : String) (l : Nat)

/-- Assignment of bodies to base local listeners. -/
abbrev PEnv := Nat → List PCmd

/-- State of one resolved proxy. -/
structure ProxyState where
  listenersByEvent : List (String × List Nat)
  unsubscribeByEvent : List (String × Nat)
  activeRemote : List (String × Nat)
  wrapperMeta : List (Nat × String × Nat)
  nextId : Nat
  nextToken : Nat
deriving DecidableEq

/-- A fresh proxy as built by `resolveIPC`. -/
def initProxy (n : Nat) : ProxyState :=
  ⟨[], [], [], [], n, 0⟩

/-- `ensureRemoteSubscription`: nothing to do when an unsubscribe function
is already stored for the event; otherwise subscribe the transport channel
once and store the unsubscribe function. -/
def ensureRemoteSubscription (st : ProxyState) (ev : String) : ProxyState :=
  if (st.unsubscribeByEvent.find? (fun q => q.1 == ev)).isSome then st
  else
    let tok := st.nextToken
    { st with
        activeRemote := st.activeRemote ++ [(ev, tok)],
        unsubscribeByEvent := st.unsubscribeByEvent ++ [(ev, tok)],
        nextToken := st.nextToken + 1 }

/-- The proxy's `on`: register locally, then ensure the remote
subscription. -/
def proxyOn (st : ProxyState) (ev : String) (l : Nat) : ProxyState :=
  let st₁ := { st with
    listenersByEvent := tableSet st.listenersByEvent ev (setAdd (tableGet st.listenersByEvent ev) l) }
  ensureRemoteSubscription st₁ ev

/-- The proxy's `off`: remove the local listener; when the event's set
empties, drop it, drop the stored unsubscribe function and call it, which
removes the transport subscription token. -/
def proxyOff (st : ProxyState) (ev : String) (l : Nat) : ProxyState :=
  match st.listenersByEvent.find? (fun q => q.1 == ev) with
  | none => st
  | some (_, ids) =>
    let ids' := ids.filter (fun x => x ≠ l)
    if ids'.isEmpty then
      let st₁ := { st with listenersByEvent := tableRemoveKey st.listenersByEvent ev }
      match st₁.unsubscribeByEvent.find? (fun q => q.1 == ev) with
      | some (_, tok) =>
        { st₁ with
            unsubscribeByEvent := st₁.unsubscribeByEvent.filter (fun q => q.1 != ev),
            activeRemote := st₁.activeRemote.filter (fun q => !(q.1 == ev && q.2 == tok)) }
      | none =>
        { st₁ with unsubscribeByEvent := st₁.unsubscribeByEvent.filter (fun q => q.1 != ev) }
    else { st with listenersByEvent := tableSet st.listenersByEvent ev ids' }

/-- The proxy's `once`: allocate the self-removing wrapper and delegate to
`on`. -/
def proxyOnce (st : ProxyState) (ev : String) (inner : Nat) : ProxyState :=
  let w := st.nextId
  let st' := { st with
    nextId := st.nextId + 1,
    wrapperMeta := st.wrapperMeta ++ [(w, ev, inner)] }
  proxyOn st' ev w

/-- Run a local listener body's proxy operations in order. -/
def runPCmds (st : ProxyState) (cmds : List PCmd) : ProxyState :=
  match cmds with
  | [] => st
  | .pOn ev l :: rest => runPCmds (proxyOn st ev l) rest
  | .pOnce ev l :: rest => runPCmds (proxyOnce st ev l) rest
  | .pOff ev l :: rest => runPCmds (proxyOff st ev l) rest

/-- Invoke one local listener on a delivery: a `once` wrapper removes itself
and then runs the wrapped listener's body; a base listener runs its body.
Throws are irrelevant to the bookkeeping and are caught by the fan-out. -/
def invokePListener (penv : PEnv) (st : ProxyState) (l : Nat) : ProxyState :=
  match (st.wrapperMeta.find? (fun q => q.1 == l)).map (fun q => q.2) with
  | some (ev, inner) => runPCmds (proxyOff st ev l) (penv inner)
  | none => runPCmds st (penv l)

/-- Fan a delivery out over a snapshot of the event's local listeners. -/
def deliverFan (penv : PEnv) (st : ProxyState) (pending : List Nat) : ProxyState :=
  match pending with
  | [] => st
  | l :: rest => deliverFan penv (invokePListener penv st l) rest

/-- A transport delivery on an event channel: it reaches the proxy only
through a live subscription, whose callback snapshots the current local
listener set and fans out with per-listener try/catch. -/
def deliver (penv : PEnv) (st : ProxyState) (ev : String) : ProxyState :=
  if st.activeRemote.any (fun q => q.1 == ev) then
    match st.listenersByEvent.find? (fun q => q.1 == ev) with
    | none => st
    | some (_, ids) => deliverFan penv st ids
  else st

/-- A top-level event-interface action on a resolved proxy. -/
inductive POp where
  | pon (ev : String) (l : Nat)
  | ponce (ev : String) (l : Nat)
  | poff (ev : String) (l : Nat)
  | pdeliver (ev : String)

/-- Apply one proxy action. -/
def runPOp (penv : PEnv) (st : ProxyState) : POp → ProxyState
  | .pon ev l => proxyOn st ev l
  | .ponce ev l => proxyOnce st ev l
  | .poff ev l => proxyOff st ev l
  | .pdeliver ev => deliver penv st ev

/-- Apply a sequence of proxy actions. -/
def runPOps (penv : PEnv) (st : ProxyState) : List POp → ProxyState
  | [] => st
  | op :: rest => runPOps penv (runPOp penv st op) rest

/-- Number of transport subscriptions currently active for an event. -/
def remoteCount (st : ProxyState) (ev : String) : Nat :=
  (st.activeRemote.filter (fun q => q.1 == ev)).length

/-- The unsubscribe token stored for an event, if any. -/
def subTok (st : ProxyState) (e : String) : Option Nat :=
  (st.unsubscribeByEvent.find? (fun q => q.1 == e)).map (fun q => q.2)

/-- Whether `listenersByEvent` has an entry for the event. -/
def hasListenerKey (st : ProxyState) (e : String) : Bool :=
  (st.listenersByEvent.find? (fun q => q.1 == e)).isSome

/-- The resolved proxy's subscription bookkeeping invariant: every stored
listener set is non-empty, an unsubscribe function is stored exactly for
the events with listeners, the transport holds exactly one subscription for
precisely those events, every active subscription's token is the stored
one, and stored tokens are below the allocation counter. -/
def PInv (st : ProxyState) : Prop :=
  (∀ e, hasListenerKey st e = true → tableGet st.listenersByEvent e ≠ []) ∧
  (∀ e, (subTok st e).isSome = hasListenerKey st e) ∧
  (∀ e, remoteCount st e = if (subTok st e).isSome then 1 else 0) ∧
  (∀ e tok, (e, tok) ∈ st.activeRemote → subTok st e = some tok) ∧
  (∀ e tok, subTok st e = some tok → tok < st.nextToken)

/-! ### Emitter auxiliary predicates and instrumented operation runner -/

/-- One top-level emitter operation together with whether it raised to its
caller: only `emit` has a raising path in the source (through the hook);
`on`, `once`, `off` and `setEmitHook` bodies contain no throw and call no
user code. -/
def runEOpE (fuel : Nat) (env : Env) (st : EmitterState) : EOp → EmitterState × Bool
  | .eOn ev l => (onOp st ev l, false)
  | .eOnce ev l => (onceOp st ev l, false)
  | .eOff ev l => (offOp st ev l, false)
  | .eEmit ev p => ((emitOp fuel env st ev p).1, (emitOp fuel env st ev p).2.1)
  | .eSetHook h => (setEmitHookOp st h, false)

/-- Whether a listener-body operation is a re-entrant `emit`. -/
def cmdIsReEmit : Cmd → Bool
  | .reEmit _ _ => true
  | _ => false

/-- The listener identifier an operation mentions (`0` for `reEmit`, which
mentions none). -/
def cmdId : Cmd → Nat
  | .addOn _ l => l
  | .addOnce _ l => l
  | .remove _ l => l
  | .reEmit _ _ => 0

/-- No listener body re-enters `emit`. -/
def envNonReentrant (env : Env) : Prop :=
  ∀ l c, c ∈ (env l).cmds → cmdIsReEmit c = false

/-- Every listener identifier mentioned by a listener body is below `N`. -/
def envBound (env : Env) (N : Nat) : Prop :=
  ∀ l c, c ∈ (env l).cmds → cmdId c < N

/-- The listener identifiers a top-level operation mentions are below `N`. -/
def eopBound (N : Nat) : EOp → Prop
  | .eOn _ l => l < N
  | .eOnce _ l => l < N
  | .eOff _ l => l < N
  | .eEmit _ _ => True
  | .eSetHook _ => True

/-- All operations of a sequence respect the identifier bound. -/
def opsBound (N : Nat) (ops : List EOp) : Prop := ∀ op ∈ ops, eopBound N op

/-- Well-formedness of an emitter state relative to the bound `N` on
application-chosen listener identifiers: allocation is fresh (`nextId`
dominates every identifier in play), listener sets are duplicate-free
(they model JavaScript `Set`s), wrapper identifiers are allocated (≥ N)
and wrap application listeners (< N). -/
def emitterWf (N : Nat) (st : EmitterState) : Prop :=
  N ≤ st.nextId ∧
  (∀ e x, x ∈ tableGet st.listenerTable e → x < st.nextId) ∧
  (∀ e, (tableGet st.listenerTable e).Nodup) ∧
  (∀ q ∈ st.wrapperMeta, N ≤ q.1 ∧ q.1 < st.nextId ∧ q.2.2 < N) ∧
  (∀ c ∈ st.calls, c.1 < st.nextId)

/-- `1` when the wrapper `w` is currently registered for `ev`, else `0`. -/
def wRegistered (st : EmitterState) (ev : String) (w : Nat) : Nat :=
  if w ∈ tableGet st.listenerTable ev then 1 else 0

/-- Invariant tracking one `once`-wrapper `w` (wrapping `inner`, registered
for `ev`): its total invocation count plus its pending registration never
exceeds one, it is registered for no other event, and the state stays
well-formed. -/
def OnceInv (N : Nat) (w : Nat) (ev : String) (inner : Nat)
    (st : EmitterState) : Prop :=
  emitterWf N st ∧ N ≤ w ∧ w < st.nextId ∧
  wrapperLookup st w = some (ev, inner) ∧ inner < N ∧
  countCalls w st.calls + wRegistered st ev w ≤ 1 ∧
  (∀ e, w ∈ tableGet st.listenerTable e → e = ev)

/-- Aggregate preservation statement used while tracking one wrapper: the
invariant holds afterwards, the wrapper's call count and registration are
unchanged, and allocation never goes backwards. -/
def InvPres (N w : Nat) (ev : String) (inner : Nat) (st st' : EmitterState) : Prop :=
  OnceInv N w ev inner st' ∧ countCalls w st'.calls = countCalls w st.calls ∧
  wRegistered st' ev w = wRegistered st ev w ∧ st.nextId ≤ st'.nextId

/-! ### Substring lemmas -/

theorem hasSub_iff (hay needle : List Char) :
    hasSub hay needle = true ↔ needle <:+: hay := by
  induction hay with
  | nil =>
    simp [hasSub, List.isPrefixOf_iff_prefix, List.prefix_nil, List.infix_nil]
  | cons c t ih =>
    rw [hasSub]
    simp [List.isPrefixOf_iff_prefix, List.infix_cons_iff, ih]

theorem strIncludes_iff (s sub : String) :
    strIncludes s sub = true ↔ strContains s sub :=
  hasSub_iff s.data sub.data

theorem strContains_appendL (s t u : String) (h : strContains t u) :
    strContains (s ++ t) u := by
  obtain ⟨x, y, hxy⟩ := h
  refine ⟨s.data ++ x, y, ?_⟩
  rw [String.data_append, ← hxy]
  simp [List.append_assoc]

theorem strContains_appendR (s t u : String) (h : strContains s u) :
    strContains (s ++ t) u := by
  obtain ⟨x, y, hxy⟩ := h
  refine ⟨x, y ++ t.data, ?_⟩
  rw [String.data_append, ← hxy]
  simp [List.append_assoc]

theorem strContains_refl (s : String) : strContains s s :=
  ⟨[], [], by simp⟩

theorem strContains_trans (s t u : String) (h₁ : strContains s t)
    (h₂ : strContains t u) : strContains s u :=
  h₂.trans h₁

/-! ### Channel-naming lemmas -/

theorem string_data_inj {a b : String} (h : a.data = b.data) : a = b := by
  cases a; cases b; simp_all

theorem colon_split (a : List Char) : ∀ (b : List Char), ':' ∉ a → ':' ∉ b →
    ∀ x y : List Char, a ++ ':' :: x = b ++ ':' :: y → a = b ∧ x = y := by
  induction a with
  | nil =>
    intro b _ hb x y h
    cases b with
    | nil => simpa using h
    | cons d bt =>
      simp at h
      rcases h with ⟨rfl, -⟩
      exact absurd (List.mem_cons_self _ _) hb
  | cons c at' ih =>
    intro b ha hb x y h
    cases b with
    | nil =>
      simp at h
      rcases h with ⟨rfl, -⟩
      exact absurd (List.mem_cons_self _ _) ha
    | cons d bt =>
      simp at h
      obtain ⟨rfl, h2⟩ := h
      have ha' : ':' ∉ at' := fun hm => ha (List.mem_cons_of_mem _ hm)
      have hb' : ':' ∉ bt := fun hm => hb (List.mem_cons_of_mem _ hm)
      obtain ⟨rfl, rfl⟩ := ih bt ha' hb' x y h2
      exact ⟨rfl, rfl⟩

/-- Claim C6 fails as stated: the channel-naming scheme uses plain `:`
delimiters with no escaping, so names containing `:` collide.  Two distinct
(serviceName, eventName) pairs share one event-channel string, and an
invoke channel coincides with an event channel. -/
theorem C6_counterexample :
    serviceEventChannel "a:event:b" "c" = serviceEventChannel "a" "b:event:c" ∧
    (("a:event:b", "c") ≠ (("a", "b:event:c") : String × String)) ∧
    serviceInvokeChannel "a:event:b" = serviceEventChannel "a" "b:invoke" := by
  refine ⟨by decide, by decide, by decide⟩

/-- Claim C6 (amended): the channel-naming functions are collision-free for
service names that do not contain the `:` delimiter: event channels are
injective in the (serviceName, eventName) pair, invoke channels are
injective in the service name (unconditionally), invoke and event channels
never coincide, and the exists channel differs from every invoke and event
channel (unconditionally). -/
theorem C6_collision_free_colon_free :
    (∀ s₁ s₂ e₁ e₂ : String, ':' ∉ s₁.data → ':' ∉ s₂.data →
      serviceEventChannel s₁ e₁ = serviceEventChannel s₂ e₂ → s₁ = s₂ ∧ e₁ = e₂) ∧
    (∀ s₁ s₂ : String, serviceInvokeChannel s₁ = serviceInvokeChannel s₂ → s₁ = s₂) ∧
    (∀ s₁ s₂ e : String, ':' ∉ s₁.data → ':' ∉ s₂.data →
      serviceInvokeChannel s₁ ≠ serviceEventChannel s₂ e) ∧
    (∀ s : String, SERVICE_EXISTS_CHANNEL ≠ serviceInvokeChannel s) ∧
    (∀ s e : String, SERVICE_EXISTS_CHANNEL ≠ serviceEventChannel s e) := by
  refine ⟨?_, ?_, ?_, ?_, ?_⟩
  · intro s₁ s₂ e₁ e₂ h₁ h₂ h
    have hd := congrArg String.data h
    simp only [serviceEventChannel, IPC_NAMESPACE, String.data_append,
      List.append_assoc] at hd
    have hd₃ := List.append_cancel_left (List.append_cancel_left hd)
    obtain ⟨hs, he⟩ := colon_split _ _ h₁ h₂ _ _ hd₃
    exact ⟨string_data_inj hs, string_data_inj (List.append_cancel_left he)⟩
  · intro s₁ s₂ h
    have hd := congrArg String.data h
    simp only [serviceInvokeChannel, IPC_NAMESPACE, String.data_append,
      List.append_assoc] at hd
    have hd₂ := List.append_cancel_left (List.append_cancel_left hd)
    exact string_data_inj (List.append_cancel_right hd₂)
  · intro s₁ s₂ e h₁ h₂ h
    have hd := congrArg String.data h
    simp only [serviceInvokeChannel, serviceEventChannel, IPC_NAMESPACE,
      String.data_append, List.append_assoc] at hd
    have hd₃ := List.append_cancel_left (List.append_cancel_left hd)
    obtain ⟨-, he⟩ := colon_split _ _ h₁ h₂ _ _ hd₃
    simp at he
  · intro s h
    have hd := congrArg (fun l => List.count ':' l) (congrArg String.data h)
    simp only [SERVICE_EXISTS_CHANNEL, serviceInvokeChannel, IPC_NAMESPACE,
      String.data_append, List.append_assoc, List.count_append] at hd
    simp [List.count_cons] at hd
  · intro s e h
    have hd := congrArg (fun l => List.count ':' l) (congrArg String.data h)
    simp only [SERVICE_EXISTS_CHANNEL, serviceEventChannel, IPC_NAMESPACE,
      String.data_append, List.append_assoc, List.count_append] at hd
    simp [List.count_cons] at hd

/-- Witness for the amended claim C6 at concrete colon-free inputs. -/
theorem C6_collision_free_colon_free_witness :
    ("alpha" : String) = "alpha" ∧ ("x" : String) = "x" :=
  C6_collision_free_colon_free.1 "alpha" "alpha" "x" "x" (by decide) (by decide) rfl

/-! ### Registry claims -/

/-- Claim C1: a registration whose resolved name (explicit name if given,
else the constructor's or instance type's name) is already in the table
throws synchronously an error whose message contains "registered" and
the service name, whatever combination of constructor and instance the two
registrations used; a registration under a fresh name never fails. -/
theorem C1_duplicate_registration (arg : ServiceArg) (explicitName : Option String)
    (st : RegistryState) :
    (registryHas st (resolvedServiceName arg explicitName) = true →
      (createIPCService arg explicitName st).2 =
        some (alreadyRegisteredMsg (resolvedServiceName arg explicitName)) ∧
      strContains (alreadyRegisteredMsg (resolvedServiceName arg explicitName)) "registered" ∧
      strContains (alreadyRegisteredMsg (resolvedServiceName arg explicitName))
        (resolvedServiceName arg explicitName)) ∧
    (registryHas st (resolvedServiceName arg explicitName) = false →
      (createIPCService arg explicitName st).2 = none) := by
  constructor
  · intro h
    refine ⟨by simp [createIPCService, h], ?_, ?_⟩
    · unfold alreadyRegisteredMsg
      apply strContains_appendL
      decide
    · exact strContains_appendR _ _ _ (strContains_appendL _ _ _ (strContains_refl _))
  · intro h
    cases arg <;> simp [createIPCService, h]

/-- Witness for claim C1: a second registration of "Widget" (first via
constructor, second via instance) fails with the duplicate message, and a
fresh "Gadget" registration does not. -/
theorem C1_duplicate_registration_witness :
    ((createIPCService (.fromInstance "Widget" ⟨false⟩) none
        ⟨[("Widget", ⟨false⟩)], true, [serviceInvokeChannel "Widget"], [], [], 1⟩).2 =
      some (alreadyRegisteredMsg "Widget")) ∧
    strContains (alreadyRegisteredMsg "Widget") "registered" ∧
    strContains (alreadyRegisteredMsg "Widget") "Widget" ∧
    ((createIPCService (.fromCtor "Gadget" ⟨true⟩) none
        ⟨[("Widget", ⟨false⟩)], true, [serviceInvokeChannel "Widget"], [], [], 1⟩).2 = none) := by
  have h₁ := (C1_duplicate_registration (.fromInstance "Widget" ⟨false⟩) none
    ⟨[("Widget", ⟨false⟩)], true, [serviceInvokeChannel "Widget"], [], [], 1⟩).1 (by decide)
  have h₂ := (C1_duplicate_registration (.fromCtor "Gadget" ⟨true⟩) none
    ⟨[("Widget", ⟨false⟩)], true, [serviceInvokeChannel "Widget"], [], [], 1⟩).2 (by decide)
  exact ⟨h₁.1, h₁.2.1, h₁.2.2, h₂⟩

/-- Claim C10: a duplicate-name registration has no side effects: the
returned module state (table, installed handlers, bound hooks, constructor
instantiations) is exactly the input state, because the duplicate check
precedes the constructor call and every other effect in the source. -/
theorem C10_duplicate_no_side_effects (arg : ServiceArg) (explicitName : Option String)
    (st : RegistryState)
    (h : registryHas st (resolvedServiceName arg explicitName) = true) :
    (createIPCService arg explicitName st).1 = st ∧
    (createIPCService arg explicitName st).1.registeredServices = st.registeredServices ∧
    (createIPCService arg explicitName st).1.invokeHandlers = st.invokeHandlers ∧
    (createIPCService arg explicitName st).1.hooksInstalled = st.hooksInstalled ∧
    (createIPCService arg explicitName st).1.constructions = st.constructions := by
  have h1 : (createIPCService arg explicitName st).1 = st := by
    simp [createIPCService, h]
  exact ⟨h1, by rw [h1], by rw [h1], by rw [h1], by rw [h1]⟩

/-- Witness for claim C10: re-registering "Widget" through a constructor
leaves the registry state untouched and never instantiates the ctor. -/
theorem C10_duplicate_no_side_effects_witness :
    (createIPCService (.fromCtor "Widget" ⟨true⟩) none
        ⟨[("Widget", ⟨false⟩)], true, [serviceInvokeChannel "Widget"], [], [], 0⟩).1 =
      ⟨[("Widget", ⟨false⟩)], true, [serviceInvokeChannel "Widget"], [], [], 0⟩ :=
  (C10_duplicate_no_side_effects (.fromCtor "Widget" ⟨true⟩) none
    ⟨[("Widget", ⟨false⟩)], true, [serviceInvokeChannel "Widget"], [], [], 0⟩ (by decide)).1

/-! ### Invoke-handler claims -/

/-- Claim C2: a request naming a reserved method (`on`, `off`, `once`,
`emit`, `setEmitHook`, `constructor`) or a property that is not a function
fails with a message containing both the service and method names, and the
property is never applied — even when the instance defines a callable
property under a reserved name (the reserved check does not consult the
instance at all). -/
theorem C2_reserved_and_noncallable (s : String) (service : ServiceInstance)
    (m : String) (args : List Value)
    (h : m ∈ RESERVED_METHOD_NAMES ∨ ∀ run, service.props m ≠ some (.method run)) :
    (handleInvoke s service m args).result = .error (missingMethodError s m) ∧
    (handleInvoke s service m args).invokedMethod = false ∧
    strContains (missingMethodError s m) s ∧
    strContains (missingMethodError s m) m := by
  have hmain : handleInvoke s service m args = ⟨.error (missingMethodError s m), false⟩ := by
    by_cases hr : m ∈ RESERVED_METHOD_NAMES
    · simp [handleInvoke, hr]
    · rcases h with h | h
      · exact absurd h hr
      · rcases hp : service.props m with _ | p
        · simp [handleInvoke, hr, hp]
        · cases p with
          | method run => exact absurd hp (h run)
          | dataProp v => simp [handleInvoke, hr, hp]
  refine ⟨by rw [hmain], by rw [hmain], ?_, ?_⟩
  · unfold missingMethodError
    exact strContains_appendR _ _ _ (strContains_appendR _ _ _
      (strContains_appendR _ _ _ (strContains_appendL _ _ _ (strContains_refl _))))
  · unfold missingMethodError
    exact strContains_appendR _ _ _ (strContains_appendL _ _ _ (strContains_refl _))

/-- Witness for claim C2: a service that defines a callable `emit` property
still has the reserved name rejected without the property being applied. -/
theorem C2_reserved_and_noncallable_witness :
    (handleInvoke "MyService"
        ⟨fun n => if n = "emit" then some (.method fun _ => .ok .unit) else none⟩
        "emit" []).result = .error (missingMethodError "MyService" "emit") ∧
    (handleInvoke "MyService"
        ⟨fun n => if n = "emit" then some (.method fun _ => .ok .unit) else none⟩
        "emit" []).invokedMethod = false ∧
    strContains (missingMethodError "MyService" "emit") "MyService" ∧
    strContains (missingMethodError "MyService" "emit") "emit" :=
  C2_reserved_and_noncallable "MyService"
    ⟨fun n => if n = "emit" then some (.method fun _ => .ok .unit) else none⟩
    "emit" [] (Or.inl (by decide))

/-- Claim C4: a dispatched method that throws (or rejects with) `t` makes
the handler fail with `methodCallError`, whose message contains the service
name, the method name and the original error's message (an `Error`'s own
message, else the stringified fallback); whatever transport envelope
`delivered` the renderer receives, as long as it still contains the
handler's message, the proxy's rejection passes through
`normalizeInvokeError` unchanged and still contains all three. -/
theorem C4_thrown_method_error (s m : String) (service : ServiceInstance)
    (run : List Value → InvokeResult) (args : List Value) (t : Thrown)
    (delivered : String)
    (hm : m ∉ RESERVED_METHOD_NAMES)
    (hp : service.props m = some (.method run))
    (hr : run args = .thrown t)
    (hdel : strContains delivered (methodCallError s m t)) :
    (handleInvoke s service m args).result = .error (methodCallError s m t) ∧
    strContains (methodCallError s m t) s ∧
    strContains (methodCallError s m t) m ∧
    strContains (methodCallError s m t) (asErrorMessage t) ∧
    normalizeInvokeError s m (.jsError delivered) = delivered ∧
    strContains delivered s ∧
    strContains delivered m ∧
    strContains delivered (asErrorMessage t) := by
  have hs : strContains (methodCallError s m t) s := by
    unfold methodCallError
    exact strContains_appendR _ _ _ (strContains_appendR _ _ _
      (strContains_appendR _ _ _ (strContains_appendR _ _ _
        (strContains_appendL _ _ _ (strContains_refl _)))))
  have hmm : strContains (methodCallError s m t) m := by
    unfold methodCallError
    exact strContains_appendR _ _ _ (strContains_appendR _ _ _
      (strContains_appendL _ _ _ (strContains_refl _)))
  have horig : strContains (methodCallError s m t) (asErrorMessage t) := by
    unfold methodCallError
    exact strContains_appendL _ _ _ (strContains_refl _)
  have hds : strContains delivered s := strContains_trans _ _ _ hdel hs
  have hdm : strContains delivered m := strContains_trans _ _ _ hdel hmm
  have hdo : strContains delivered (asErrorMessage t) := strContains_trans _ _ _ hdel horig
  have hnorm : normalizeInvokeError s m (.jsError delivered) = delivered := by
    simp [normalizeInvokeError, (strIncludes_iff _ _).mpr hds, (strIncludes_iff _ _).mpr hdm]
  exact ⟨by simp [handleInvoke, hm, hp, hr], hs, hmm, horig, hnorm, hds, hdm, hdo⟩

/-- Witness for claim C4: a method throwing `Error('boom')` on "MyService",
method "doThing", with the transport delivering the handler message
verbatim. -/
theorem C4_thrown_method_error_witness :
    (handleInvoke "MyService"
        ⟨fun n => if n = "doThing" then some (.method fun _ => .thrown (.jsError "boom")) else none⟩
        "doThing" []).result =
      .error (methodCallError "MyService" "doThing" (.jsError "boom")) ∧
    strContains (methodCallError "MyService" "doThing" (.jsError "boom")) "MyService" ∧
    strContains (methodCallError "MyService" "doThing" (.jsError "boom")) "doThing" ∧
    strContains (methodCallError "MyService" "doThing" (.jsError "boom")) "boom" ∧
    normalizeInvokeError "MyService" "doThing"
        (.jsError (methodCallError "MyService" "doThing" (.jsError "boom"))) =
      methodCallError "MyService" "doThing" (.jsError "boom") ∧
    strContains (methodCallError "MyService" "doThing" (.jsError "boom")) "MyService" ∧
    strContains (methodCallError "MyService" "doThing" (.jsError "boom")) "doThing" ∧
    strContains (methodCallError "MyService" "doThing" (.jsError "boom")) "boom" :=
  C4_thrown_method_error "MyService" "doThing"
    ⟨fun n => if n = "doThing" then some (.method fun _ => .thrown (.jsError "boom")) else none⟩
    (fun _ => .thrown (.jsError "boom")) [] (.jsError "boom")
    (methodCallError "MyService" "doThing" (.jsError "boom"))
    (by decide) rfl rfl (strContains_refl _)

/-! ### Resolver claims -/

/-- Claim C5: `resolveIPC` throws synchronously the bridge-not-enabled error
when no bridge is installed under the global key; throws synchronously the
"not registered" error naming the service when the synchronous existence
query is false; returns a proxy when it is true; and later proxy method
calls depend only on the bridge's `invoke`, never re-consulting
`hasService`. -/
theorem C5_resolve_checks (b : BridgeModel) (s : String) :
    (resolveIPC none s = .error notEnabledMsg) ∧
    (b.hasServiceFn s = false →
      resolveIPC (some b) s = .error (notRegisteredMsg s) ∧
      strContains (notRegisteredMsg s) "not registered" ∧
      strContains (notRegisteredMsg s) s) ∧
    (b.hasServiceFn s = true → resolveIPC (some b) s = .ok s) ∧
    (∀ b' : BridgeModel, b'.invokeResult = b.invokeResult →
      ∀ m args, proxyInvoke b' s m args = proxyInvoke b s m args) := by
  refine ⟨rfl, ?_, ?_, ?_⟩
  · intro h
    refine ⟨by simp [resolveIPC, h], ?_, ?_⟩
    · unfold notRegisteredMsg
      apply strContains_appendL
      decide
    · exact strContains_appendR _ _ _ (strContains_appendL _ _ _ (strContains_refl _))
  · intro h
    simp [resolveIPC, h]
  · intro b' h m args
    simp [proxyInvoke, h]

/-- Witness for claim C5 at a concrete bridge: a bridge that knows only
"Widget" rejects "Gadget" synchronously and resolves "Widget"; two bridges
sharing `invoke` but disagreeing on `hasService` give identical proxy
calls. -/
theorem C5_resolve_checks_witness :
    resolveIPC none "Widget" = .error notEnabledMsg ∧
    resolveIPC (some ⟨fun n => n == "Widget", fun _ _ _ => .ok .unit⟩) "Gadget" =
      .error (notRegisteredMsg "Gadget") ∧
    resolveIPC (some ⟨fun n => n == "Widget", fun _ _ _ => .ok .unit⟩) "Widget" = .ok "Widget" ∧
    proxyInvoke ⟨fun _ => false, fun _ _ _ => .ok .unit⟩ "Widget" "ping" [] =
      proxyInvoke ⟨fun n => n == "Widget", fun _ _ _ => .ok .unit⟩ "Widget" "ping" [] := by
  have h₁ := (C5_resolve_checks ⟨fun n => n == "Widget", fun _ _ _ => .ok .unit⟩ "Gadget").2.1
    (by decide)
  have h₂ := (C5_resolve_checks ⟨fun n => n == "Widget", fun _ _ _ => .ok .unit⟩ "Widget").2.2.1
    (by decide)
  have h₃ := (C5_resolve_checks ⟨fun n => n == "Widget", fun _ _ _ => .ok .unit⟩ "Widget").2.2.2
    ⟨fun _ => false, fun _ _ _ => .ok .unit⟩ rfl "ping" []
  exact ⟨(C5_resolve_checks ⟨fun n => n == "Widget", fun _ _ _ => .ok .unit⟩ "Widget").1,
    h₁.1, h₂, h₃⟩

/-! ### Listener-table lemmas -/

theorem beq_false_of_ne {a b : String} (h : a ≠ b) : (a == b) = false := by
  simp [h]

theorem tableGet_tableSet_self (t : List (String × List Nat)) (ev : String)
    (ids : List Nat) : tableGet (tableSet t ev ids) ev = ids := by
  induction t with
  | nil => simp [tableSet, tableGet, List.find?]
  | cons kv rest ih =>
    rcases kv with ⟨k, v⟩
    by_cases h : k = ev
    · subst h
      simp [tableSet, tableGet, List.find?]
    · have h' : (k == ev) = false := beq_false_of_ne h
      simp only [tableSet, h', if_false]
      simpa [tableGet, List.find?_cons, h'] using ih

theorem tableGet_tableSet_ne (t : List (String × List Nat)) (ev e : String)
    (ids : List Nat) (h : e ≠ ev) :
    tableGet (tableSet t ev ids) e = tableGet t e := by
  have hve : (ev == e) = false := beq_false_of_ne (Ne.symm h)
  induction t with
  | nil => simp [tableSet, tableGet, List.find?_cons, hve]
  | cons kv rest ih =>
    rcases kv with ⟨k, v⟩
    by_cases hk : k = ev
    · subst hk
      simp [tableSet, tableGet, List.find?_cons, hve]
    · have hk' : (k == ev) = false := beq_false_of_ne hk
      by_cases hke : k = e
      · subst hke
        simp [tableSet, tableGet, hk', List.find?_cons]
      · have hke' : (k == e) = false := beq_false_of_ne hke
        simp only [tableSet, hk', if_false]
        simpa [tableGet, List.find?_cons, hke'] using ih

theorem tableGet_tableRemoveKey_self (t : List (String × List Nat)) (ev : String) :
    tableGet (tableRemoveKey t ev) ev = [] := by
  induction t with
  | nil => rfl
  | cons kv rest ih =>
    rcases kv with ⟨k, v⟩
    by_cases hk : k = ev
    · have hb : (k != ev) = false := by simp [bne, hk]
      simpa [tableRemoveKey, List.filter_cons, hb] using ih
    · have hb : (k != ev) = true := by simp [bne, hk]
      have hk' : (k == ev) = false := beq_false_of_ne hk
      simpa [tableRemoveKey, tableGet, List.filter_cons, List.find?_cons, hb, hk'] using ih

theorem tableGet_tableRemoveKey_ne (t : List (String × List Nat)) (ev e : String)
    (h : e ≠ ev) : tableGet (tableRemoveKey t ev) e = tableGet t e := by
  induction t with
  | nil => rfl
  | cons kv rest ih =>
    rcases kv with ⟨k, v⟩
    by_cases hk : k = ev
    · have h' : (k == e) = false := beq_false_of_ne (hk ▸ Ne.symm h)
      have hb : (k != ev) = false := by simp [bne, hk]
      simpa [tableRemoveKey, tableGet, List.filter_cons, List.find?_cons, h', hb] using ih
    · have hb : (k != ev) = true := by simp [bne, hk]
      by_cases hke : k = e
      · subst hke
        simp [tableRemoveKey, tableGet, List.filter_cons, List.find?_cons, hb]
      · have hke' : (k == e) = false := beq_false_of_ne hke
        simpa [tableRemoveKey, tableGet, List.filter_cons, List.find?_cons, hb, hke']
          using ih

theorem setAdd_mem (l : List Nat) (x y : Nat) :
    y ∈ setAdd l x ↔ y ∈ l ∨ y = x := by
  by_cases h : x ∈ l
  · simp only [setAdd, h, if_true]
    constructor
    · exact Or.inl
    · rintro (hy | rfl)
      · exact hy
      · exact h
  · simp [setAdd, h]

theorem setAdd_nodup (l : List Nat) (x : Nat) (h : l.Nodup) :
    (setAdd l x).Nodup := by
  by_cases hx : x ∈ l
  · simpa [setAdd, hx] using h
  · simp [setAdd, hx, List.nodup_append, h]

theorem tableGet_onOp (st : EmitterState) (ev : String) (l : Nat) (e : String) :
    tableGet (onOp st ev l).listenerTable e =
      if e = ev then setAdd (tableGet st.listenerTable ev) l
      else tableGet st.listenerTable e := by
  by_cases he : e = ev
  · subst he
    simp [onOp, tableGet_tableSet_self]
  · simp [onOp, tableGet_tableSet_ne _ _ _ _ he, he]

theorem filter_ne_eq_nil_iff (ids : List Nat) (l : Nat) :
    ids.filter (fun x => x ≠ l) = [] ↔ ∀ a ∈ ids, a = l := by
  rw [List.filter_eq_nil_iff]
  constructor
  · intro h a ha
    have := h a ha
    simpa using this
  · intro h a ha
    simpa using h a ha

theorem tableGet_offOp (st : EmitterState) (ev : String) (l : Nat) (e : String) :
    tableGet (offOp st ev l).listenerTable e =
      if e = ev then (tableGet st.listenerTable ev).filter (fun y => y ≠ l)
      else tableGet st.listenerTable e := by
  unfold offOp
  cases hf : st.listenerTable.find? (fun p => p.1 == ev) with
  | none =>
    have hev : tableGet st.listenerTable ev = [] := by simp [tableGet, hf]
    by_cases he : e = ev <;> simp [he, hev]
  | some kv =>
    rcases kv with ⟨k, ids⟩
    have hk : k = ev := by simpa using List.find?_some hf
    subst hk
    have hev : tableGet st.listenerTable k = ids := by simp [tableGet, hf]
    dsimp only
    split
    next hemp =>
      have hnil : ids.filter (fun x => x ≠ l) = [] := List.isEmpty_iff.mp hemp
      by_cases he : e = k
      · subst he
        rw [tableGet_tableRemoveKey_self, if_pos rfl, hev]
        exact hnil.symm
      · simp [tableGet_tableRemoveKey_ne _ _ _ he, he]
    next hemp =>
      by_cases he : e = k
      · subst he
        simp [tableGet_tableSet_self, hev]
      · simp [tableGet_tableSet_ne _ _ _ _ he, he]

theorem offOp_rest (st : EmitterState) (ev : String) (l : Nat) :
    (offOp st ev l).calls = st.calls ∧ (offOp st ev l).wrapperMeta = st.wrapperMeta ∧
    (offOp st ev l).nextId = st.nextId ∧ (offOp st ev l).hook = st.hook ∧
    (offOp st ev l).broadcasts = st.broadcasts := by
  unfold offOp
  cases hf : st.listenerTable.find? (fun p => p.1 == ev) with
  | none => exact ⟨rfl, rfl, rfl, rfl, rfl⟩
  | some kv =>
    rcases kv with ⟨k, ids⟩
    dsimp only
    split <;> exact ⟨rfl, rfl, rfl, rfl, rfl⟩

/-! ### Hook preservation and the emission loop's direct calls -/

theorem onOp_rest (st : EmitterState) (ev : String) (l : Nat) :
    (onOp st ev l).calls = st.calls ∧ (onOp st ev l).wrapperMeta = st.wrapperMeta ∧
    (onOp st ev l).nextId = st.nextId ∧ (onOp st ev l).hook = st.hook ∧
    (onOp st ev l).broadcasts = st.broadcasts :=
  ⟨rfl, rfl, rfl, rfl, rfl⟩

theorem onceOp_rest (st : EmitterState) (ev : String) (inner : Nat) :
    (onceOp st ev inner).calls = st.calls ∧
    (onceOp st ev inner).wrapperMeta = st.wrapperMeta ++ [(st.nextId, ev, inner)] ∧
    (onceOp st ev inner).nextId = st.nextId + 1 ∧
    (onceOp st ev inner).hook = st.hook ∧
    (onceOp st ev inner).broadcasts = st.broadcasts :=
  ⟨rfl, rfl, rfl, rfl, rfl⟩

theorem runCmdsWith_hook
    (nested : Option (EmitterState → String → Value →
      EmitterState × Bool × List (Nat × Value)))
    (hn : ∀ emitN, nested = some emitN → ∀ st ev p, (emitN st ev p).1.hook = st.hook) :
    ∀ st cmds, (runCmdsWith nested st cmds).1.hook = st.hook := by
  intro st cmds
  induction cmds generalizing st with
  | nil => rfl
  | cons c rest ih =>
    cases c with
    | addOn ev l =>
      simp only [runCmdsWith]
      exact ih _
    | addOnce ev l =>
      simp only [runCmdsWith]
      exact ih _
    | remove ev l =>
      simp only [runCmdsWith]
      rw [ih _, (offOp_rest st ev l).2.2.2.1]
    | reEmit ev p =>
      simp only [runCmdsWith]
      cases nested with
      | none => exact ih _
      | some emitN =>
        dsimp only
        rcases hsp : emitN st ev p with ⟨st₁, esc, dir⟩
        have h1 : st₁.hook = st.hook := by
          rw [← hn emitN rfl st ev p, hsp]
        dsimp only
        cases esc with
        | true => simpa using h1
        | false =>
          simp only [Bool.false_eq_true, if_false]
          rw [ih _, h1]

theorem invokeLWith_hook
    (ninv : Option (EmitterState → Nat → Value → EmitterState × Bool))
    (runC : EmitterState → List Cmd → EmitterState × Bool) (env : Env)
    (hninv : ∀ inv, ninv = some inv → ∀ st l p, (inv st l p).1.hook = st.hook)
    (hrunC : ∀ st cmds, (runC st cmds).1.hook = st.hook)
    (st : EmitterState) (l : Nat) (p : Value) :
    (invokeLWith ninv runC env st l p).1.hook = st.hook := by
  unfold invokeLWith
  dsimp only
  cases wrapperLookup { st with calls := st.calls ++ [(l, p)] } l with
  | none =>
    rcases hr : runC { st with calls := st.calls ++ [(l, p)] } (env l).cmds with ⟨st₁, ab⟩
    have : st₁.hook = st.hook := by
      rw [← hrunC { st with calls := st.calls ++ [(l, p)] } (env l).cmds, hr]
    simpa using this
  | some pr =>
    rcases pr with ⟨ev, inner⟩
    dsimp only
    cases ninv with
    | none =>
      exact (offOp_rest { st with calls := st.calls ++ [(l, p)] } ev l).2.2.2.1
    | some inv =>
      rw [hninv inv rfl _ inner p,
        (offOp_rest { st with calls := st.calls ++ [(l, p)] } ev l).2.2.2.1]

theorem emitFanWith_hook (inv : EmitterState → Nat → Value → EmitterState × Bool)
    (hinv : ∀ st l p, (inv st l p).1.hook = st.hook) :
    ∀ st pending p, (emitFanWith inv st pending p).1.hook = st.hook := by
  intro st pending p
  induction pending generalizing st with
  | nil => rfl
  | cons l rest ih =>
    simp only [emitFanWith]
    rcases h : inv st l p with ⟨st₁, b⟩
    have h1 : st₁.hook = st.hook := by rw [← hinv st l p, h]
    dsimp only
    rcases h2 : emitFanWith inv st₁ rest p with ⟨st₂, d⟩
    have h3 : st₂.hook = st₁.hook := by rw [← ih st₁, h2]
    dsimp only
    rw [h3, h1]

theorem emitOpWith_hook
    (fan : EmitterState → List Nat → Value → EmitterState × List (Nat × Value))
    (hfan : ∀ st pending p, (fan st pending p).1.hook = st.hook)
    (st : EmitterState) (ev : String) (p : Value) :
    (emitOpWith fan st ev p).1.hook = st.hook := by
  unfold emitOpWith
  dsimp only
  rcases hf : fan st (tableGet st.listenerTable ev) p with ⟨st₁, direct⟩
  have h1 : st₁.hook = st.hook := by rw [← hfan st _ p, hf]
  dsimp only
  cases hh : st₁.hook with
  | none => simpa using h1
  | some hk =>
    cases hk with
    | broadcast s => simpa [hh] using h1
    | raising => simpa using h1

theorem levelFns_hook (env : Env) : ∀ fuel : Nat,
    (∀ st l p, ((levelFns env fuel).invokeLF st l p).1.hook = st.hook) ∧
    (∀ st ev p, ((levelFns env fuel).emitOpF st ev p).1.hook = st.hook) := by
  intro fuel
  induction fuel with
  | zero =>
    have hrc := runCmdsWith_hook none (by intro e h; cases h)
    have hinv := invokeLWith_hook none (runCmdsWith none) env (by intro i h; cases h) hrc
    refine ⟨hinv, ?_⟩
    intro st ev p
    exact emitOpWith_hook _ (emitFanWith_hook _ hinv) st ev p
  | succ f ih =>
    have hrc := runCmdsWith_hook (some (levelFns env f).emitOpF)
      (by intro e h st ev p; cases h; exact ih.2 st ev p)
    have hinv := invokeLWith_hook (some (levelFns env f).invokeLF)
      (runCmdsWith (some (levelFns env f).emitOpF)) env
      (by intro i h st l p; cases h; exact ih.1 st l p) hrc
    refine ⟨hinv, ?_⟩
    intro st ev p
    exact emitOpWith_hook _ (emitFanWith_hook _ hinv) st ev p

theorem emitOp_hook (fuel : Nat) (env : Env) (st : EmitterState) (ev : String) (p : Value) :
    (emitOp fuel env st ev p).1.hook = st.hook :=
  (levelFns_hook env fuel).2 st ev p

theorem emitFanWith_direct (inv : EmitterState → Nat → Value → EmitterState × Bool) :
    ∀ st pending p, (emitFanWith inv st pending p).2 = pending.map (fun l => (l, p)) := by
  intro st pending p
  induction pending generalizing st with
  | nil => rfl
  | cons l rest ih =>
    simp only [emitFanWith]
    rcases h : inv st l p with ⟨st₁, b⟩
    dsimp only
    rcases h2 : emitFanWith inv st₁ rest p with ⟨st₂, d⟩
    have hd : d = rest.map (fun l => (l, p)) := by rw [← ih st₁, h2]
    simp [hd]

theorem emitOpWith_direct
    (fan : EmitterState → List Nat → Value → EmitterState × List (Nat × Value))
    (hfan : ∀ st pending p, (fan st pending p).2 = pending.map (fun l => (l, p)))
    (st : EmitterState) (ev : String) (p : Value) :
    (emitOpWith fan st ev p).2.2 = (tableGet st.listenerTable ev).map (fun l => (l, p)) := by
  unfold emitOpWith
  dsimp only
  rcases hf : fan st (tableGet st.listenerTable ev) p with ⟨st₁, direct⟩
  have hd : direct = (tableGet st.listenerTable ev).map (fun l => (l, p)) := by
    rw [← hfan st (tableGet st.listenerTable ev) p, hf]
  dsimp only
  cases st₁.hook with
  | none => simpa using hd
  | some hk => cases hk <;> simpa using hd

theorem emitOp_direct (fuel : Nat) (env : Env) (st : EmitterState) (ev : String) (p : Value) :
    (emitOp fuel env st ev p).2.2 = (tableGet st.listenerTable ev).map (fun l => (l, p)) := by
  cases fuel with
  | zero => exact emitOpWith_direct _ (emitFanWith_direct _) st ev p
  | succ f => exact emitOpWith_direct _ (emitFanWith_direct _) st ev p

theorem emitOpWith_escape
    (fan : EmitterState → List Nat → Value → EmitterState × List (Nat × Value))
    (hfan : ∀ st pending p, (fan st pending p).1.hook = st.hook)
    (st : EmitterState) (ev : String) (p : Value) (h : st.hook ≠ some Hook.raising) :
    (emitOpWith fan st ev p).2.1 = false := by
  unfold emitOpWith
  dsimp only
  rcases hf : fan st (tableGet st.listenerTable ev) p with ⟨st₁, direct⟩
  have h1 : st₁.hook = st.hook := by rw [← hfan st _ p, hf]
  dsimp only
  cases hh : st₁.hook with
  | none => rfl
  | some hk =>
    cases hk with
    | broadcast s => rfl
    | raising => exact absurd (h1.symm.trans hh) h

theorem emitOp_escape (fuel : Nat) (env : Env) (st : EmitterState) (ev : String) (p : Value)
    (h : st.hook ≠ some Hook.raising) : (emitOp fuel env st ev p).2.1 = false := by
  cases fuel with
  | zero => exact emitOpWith_escape _ (emitFanWith_hook _ (levelFns_hook env 0).1) st ev p h
  | succ f =>
    exact emitOpWith_escape _ (emitFanWith_hook _ (levelFns_hook env (f + 1)).1) st ev p h

/-! ### Emitter claims -/

/-- Claim C3: one emission's own loop invokes exactly the listeners in the
event's set at the moment the call began, each exactly once with that
payload (so listeners added during the emission get nothing from it), for
every listener environment — including ones that throw, so a raising
listener never prevents the rest of the snapshot nor escapes (no escape
unless the hook itself raises); and an emission that happened before a
listener was attached is never replayed: emit, then attach, then emit again
leaves exactly the second delivery in the log. -/
theorem C3_emit_snapshot_isolated_no_replay :
    (∀ fuel env st ev p,
      (emitOp fuel env st ev p).2.2 =
        (tableGet st.listenerTable ev).map (fun l => (l, p))) ∧
    (∀ fuel env st ev p, st.hook ≠ some Hook.raising →
      (emitOp fuel env st ev p).2.1 = false) ∧
    (∀ fuel env n ev p₁ p₂ l, env l = ⟨[], false⟩ →
      ((emitOp fuel env (onOp (emitOp fuel env (initEmitter n) ev p₁).1 ev l) ev p₂).1).calls
        = [(l, p₂)]) := by
  refine ⟨emitOp_direct, emitOp_escape, ?_⟩
  intro fuel env n ev p₁ p₂ l henv
  have h1 : (emitOp fuel env (initEmitter n) ev p₁).1 = initEmitter n := by
    cases fuel <;>
      simp [emitOp, levelFns, emitOpWith, emitFanWith, tableGet, initEmitter, List.find?]
  rw [h1]
  cases fuel <;>
    simp [emitOp, levelFns, emitOpWith, emitFanWith, invokeLWith, runCmdsWith, wrapperLookup,
      onOp, tableGet, tableSet, setAdd, initEmitter, henv, List.find?]

/-- Witness for claim C3: a snapshot of two listeners (the first of which
throws) is delivered in full with no escape, and the no-replay scenario
observes exactly the post-attachment payload. -/
theorem C3_emit_snapshot_isolated_no_replay_witness :
    ((emitOp 2 (fun l => if l == 0 then ⟨[], true⟩ else ⟨[], false⟩)
        { initEmitter 2 with listenerTable := [("x", [0, 1])], hook := some (.broadcast "Svc") }
        "x" .unit).2.2 =
      (tableGet [("x", [0, 1])] "x").map (fun l => (l, Value.unit))) ∧
    ((emitOp 2 (fun l => if l == 0 then ⟨[], true⟩ else ⟨[], false⟩)
        { initEmitter 2 with listenerTable := [("x", [0, 1])], hook := some (.broadcast "Svc") }
        "x" .unit).2.1 = false) ∧
    ((emitOp 2 (fun _ => ⟨[], false⟩)
        (onOp (emitOp 2 (fun _ => ⟨[], false⟩) (initEmitter 1) "x" (.str "before")).1 "x" 0)
        "x" (.str "after")).1.calls = [(0, .str "after")]) :=
  ⟨C3_emit_snapshot_isolated_no_replay.1 2 _ _ "x" .unit,
   C3_emit_snapshot_isolated_no_replay.2.1 2 _ _ "x" .unit (by decide),
   C3_emit_snapshot_isolated_no_replay.2.2 2 _ 1 "x" (.str "before") (.str "after") 0 rfl⟩

/-- Claim C9 fails as stated: in `IPCService.emit` the hook call
`this.emitHook?.(eventName, payload)` sits outside the try/catch that
guards listener invocations, so a hook that raises makes `emit` raise to
its caller. -/
theorem C9_counterexample :
    (emitOp 1 (fun _ => ⟨[], false⟩) { initEmitter 0 with hook := some Hook.raising }
      "x" Value.unit).2.1 = true := by decide

/-- Claim C9 (amended): `emit` never raises to its caller provided the
installed emit hook does not itself raise when invoked — in particular with
no hook, or with the registry's broadcasting hook; `off` never raises
unconditionally (its body has no throwing path), as do `on`, `once` and
`setEmitHook`.  A raising hook's error, by contrast, escapes `emit`. -/
theorem C9_emit_off_never_raise :
    (∀ fuel env st op, st.hook ≠ some Hook.raising → (runEOpE fuel env st op).2 = false) ∧
    (∀ fuel env st ev l, (runEOpE fuel env st (.eOff ev l)).2 = false) := by
  constructor
  · intro fuel env st op h
    cases op with
    | eEmit ev p => exact emitOp_escape fuel env st ev p h
    | eOn ev l => rfl
    | eOnce ev l => rfl
    | eOff ev l => rfl
    | eSetHook hk => rfl
  · intro fuel env st ev l
    rfl

/-- Witness for the amended claim C9: with the registry's broadcasting hook
installed, `emit` reports no error; `off` reports none even with a raising
hook installed. -/
theorem C9_emit_off_never_raise_witness :
    (runEOpE 1 (fun _ => ⟨[], false⟩)
      { initEmitter 0 with hook := some (Hook.broadcast "Svc") } (.eEmit "x" .unit)).2 = false ∧
    (runEOpE 1 (fun _ => ⟨[], false⟩)
      { initEmitter 0 with hook := some Hook.raising } (.eOff "x" 0)).2 = false :=
  ⟨C9_emit_off_never_raise.1 1 _ _ _ (by decide),
   C9_emit_off_never_raise.2 1 _ _ "x" 0⟩

/-! ### Once-wrapper counting lemmas -/

theorem countCalls_append (w : Nat) (c : List (Nat × Value)) (l : Nat)
    (p : Value) : countCalls w (c ++ [(l, p)]) = countCalls w c + (if l = w then 1 else 0) := by
  by_cases h : l = w <;> simp [countCalls, List.filter_append, h]

theorem countCalls_zero (w : Nat) (c : List (Nat × Value))
    (h : ∀ q ∈ c, q.1 < w) : countCalls w c = 0 := by
  simp only [countCalls, List.length_eq_zero]
  rw [List.filter_eq_nil_iff]
  intro q hq
  have hlt := h q hq
  simp only [beq_iff_eq]
  exact Nat.ne_of_lt hlt

theorem wrapperLookup_calls (st : EmitterState) (c : List (Nat × Value))
    (w : Nat) : wrapperLookup { st with calls := c } w = wrapperLookup st w := rfl

theorem wrapperLookup_offOp (st : EmitterState) (e : String) (l w : Nat) :
    wrapperLookup (offOp st e l) w = wrapperLookup st w := by
  unfold wrapperLookup
  rw [(offOp_rest st e l).2.1]

theorem wrapperLookup_onOp (st : EmitterState) (e : String) (l w : Nat) :
    wrapperLookup (onOp st e l) w = wrapperLookup st w := rfl

theorem wrapperLookup_onceOp_ne (st : EmitterState) (e : String) (l w : Nat)
    (h : st.nextId ≠ w) : wrapperLookup (onceOp st e l) w = wrapperLookup st w := by
  unfold wrapperLookup
  rw [(onceOp_rest st e l).2.1, List.find?_append]
  have hb : (st.nextId == w) = false := by simp [h]
  cases hf : st.wrapperMeta.find? (fun q => q.1 == w) with
  | none => simp [List.find?, hb]
  | some q => simp

theorem mem_tableGet_onOp (st : EmitterState) (e : String) (l : Nat) (e' : String)
    (y : Nat) :
    y ∈ tableGet (onOp st e l).listenerTable e' ↔
      y ∈ tableGet st.listenerTable e' ∨ (e' = e ∧ y = l) := by
  rw [tableGet_onOp]
  by_cases he : e' = e
  · subst he
    simp [setAdd_mem]
  · simp [he]

theorem mem_tableGet_offOp (st : EmitterState) (e : String) (l : Nat) (e' : String)
    (y : Nat) :
    y ∈ tableGet (offOp st e l).listenerTable e' ↔
      y ∈ tableGet st.listenerTable e' ∧ (e' = e → y ≠ l) := by
  rw [tableGet_offOp]
  by_cases he : e' = e
  · subst he
    simp [List.mem_filter]
  · simp [he]

theorem mem_tableGet_onceOp (st : EmitterState) (e : String) (l : Nat) (e' : String)
    (y : Nat) :
    y ∈ tableGet (onceOp st e l).listenerTable e' ↔
      y ∈ tableGet st.listenerTable e' ∨ (e' = e ∧ y = st.nextId) := by
  have h := mem_tableGet_onOp
    { st with nextId := st.nextId + 1, wrapperMeta := st.wrapperMeta ++ [(st.nextId, e, l)] }
    e st.nextId e' y
  simpa [onceOp] using h

theorem nodup_tableGet_onOp (st : EmitterState) (e : String) (l : Nat) (e' : String)
    (h : ∀ ee, (tableGet st.listenerTable ee).Nodup) :
    (tableGet (onOp st e l).listenerTable e').Nodup := by
  rw [tableGet_onOp]
  by_cases he : e' = e
  · subst he
    rw [if_pos rfl]
    exact setAdd_nodup _ _ (h e')
  · simpa [he] using h e'

theorem nodup_tableGet_offOp (st : EmitterState) (e : String) (l : Nat) (e' : String)
    (h : ∀ ee, (tableGet st.listenerTable ee).Nodup) :
    (tableGet (offOp st e l).listenerTable e').Nodup := by
  rw [tableGet_offOp]
  by_cases he : e' = e
  · subst he
    rw [if_pos rfl]
    exact (h e').filter _
  · simpa [he] using h e'

/-- `on` with an application listener (`l < N`) preserves the once-wrapper
invariant, the wrapper's call count and registration, and allocation. -/
theorem OnceInv_onOp (N : Nat) (w : Nat) (ev : String) (inner : Nat)
    (st : EmitterState) (e : String) (l : Nat)
    (h : OnceInv N w ev inner st) (hl : l < N) :
    OnceInv N w ev inner (onOp st e l) ∧
    (onOp st e l).calls = st.calls ∧
    wRegistered (onOp st e l) ev w = wRegistered st ev w ∧
    st.nextId ≤ (onOp st e l).nextId := by
  obtain ⟨⟨hN, hids, hnd, hwm, hcids⟩, hNw, hwn, hwl, hinner, hcount, honly⟩ := h
  have hwne : w ≠ l := by omega
  have hregmem : w ∈ tableGet (onOp st e l).listenerTable ev ↔
      w ∈ tableGet st.listenerTable ev := by
    rw [mem_tableGet_onOp]
    simp [hwne]
  have hreg : wRegistered (onOp st e l) ev w = wRegistered st ev w := by
    unfold wRegistered
    by_cases hm : w ∈ tableGet st.listenerTable ev <;> simp [hm, hregmem]
  refine ⟨⟨⟨hN, ?_, ?_, hwm, hcids⟩, hNw, hwn, hwl, hinner, ?_, ?_⟩, rfl, hreg, le_refl _⟩
  · intro e' x hx
    rcases (mem_tableGet_onOp st e l e' x).mp hx with hx' | ⟨-, rfl⟩
    · exact hids e' x hx'
    · show x < st.nextId
      omega
  · intro e'
    exact nodup_tableGet_onOp st e l e' hnd
  · rw [hreg]
    exact hcount
  · intro e' hmem
    rcases (mem_tableGet_onOp st e l e' w).mp hmem with hm | ⟨-, h'⟩
    · exact honly e' hm
    · exact absurd h' hwne

/-- `off` with a listener other than the wrapper preserves the invariant,
the count and the registration. -/
theorem OnceInv_offOp (N : Nat) (w : Nat) (ev : String) (inner : Nat)
    (st : EmitterState) (e : String) (l : Nat)
    (h : OnceInv N w ev inner st) (hlne : l ≠ w) :
    OnceInv N w ev inner (offOp st e l) ∧
    (offOp st e l).calls = st.calls ∧
    wRegistered (offOp st e l) ev w = wRegistered st ev w ∧
    st.nextId ≤ (offOp st e l).nextId := by
  obtain ⟨⟨hN, hids, hnd, hwm, hcids⟩, hNw, hwn, hwl, hinner, hcount, honly⟩ := h
  obtain ⟨hc, hwmeq, hnx, -, -⟩ := offOp_rest st e l
  have hregmem : w ∈ tableGet (offOp st e l).listenerTable ev ↔
      w ∈ tableGet st.listenerTable ev := by
    rw [mem_tableGet_offOp]
    have hwl2 : w ≠ l := Ne.symm hlne
    simp [hwl2]
  have hreg : wRegistered (offOp st e l) ev w = wRegistered st ev w := by
    unfold wRegistered
    by_cases hm : w ∈ tableGet st.listenerTable ev <;> simp [hm, hregmem]
  refine ⟨⟨⟨?_, ?_, ?_, ?_, ?_⟩, hNw, ?_, ?_, hinner, ?_, ?_⟩, hc, hreg, le_of_eq hnx.symm⟩
  · rw [hnx]; exact hN
  · intro e' x hx
    rw [hnx]
    exact hids e' x ((mem_tableGet_offOp st e l e' x).mp hx).1
  · intro e'
    exact nodup_tableGet_offOp st e l e' hnd
  · intro q hq
    rw [hnx]
    exact hwm q (hwmeq ▸ hq)
  · intro c hc'
    rw [hnx]
    exact hcids c (hc ▸ hc')
  · rw [hnx]; exact hwn
  · rw [wrapperLookup_offOp]; exact hwl
  · rw [hc, hreg]
    exact hcount
  · intro e' hmem
    exact honly e' ((mem_tableGet_offOp st e l e' w).mp hmem).1

/-- `once` with an application listener preserves the invariant, the count
and the registration; allocation strictly advances. -/
theorem OnceInv_onceOp (N : Nat) (w : Nat) (ev : String) (inner : Nat)
    (st : EmitterState) (e : String) (l : Nat)
    (h : OnceInv N w ev inner st) (hl : l < N) :
    OnceInv N w ev inner (onceOp st e l) ∧
    (onceOp st e l).calls = st.calls ∧
    wRegistered (onceOp st e l) ev w = wRegistered st ev w ∧
    st.nextId ≤ (onceOp st e l).nextId := by
  obtain ⟨⟨hN, hids, hnd, hwm, hcids⟩, hNw, hwn, hwl, hinner, hcount, honly⟩ := h
  obtain ⟨hc, hwmeq, hnx, -, -⟩ := onceOp_rest st e l
  have hwnn : w ≠ st.nextId := Nat.ne_of_lt hwn
  have hregmem : w ∈ tableGet (onceOp st e l).listenerTable ev ↔
      w ∈ tableGet st.listenerTable ev := by
    rw [mem_tableGet_onceOp]
    simp [hwnn]
  have hreg : wRegistered (onceOp st e l) ev w = wRegistered st ev w := by
    unfold wRegistered
    by_cases hm : w ∈ tableGet st.listenerTable ev <;> simp [hm, hregmem]
  have hndOnce : ∀ e', (tableGet (onceOp st e l).listenerTable e').Nodup := by
    intro e'
    have := nodup_tableGet_onOp
      { st with nextId := st.nextId + 1, wrapperMeta := st.wrapperMeta ++ [(st.nextId, e, l)] }
      e st.nextId e' (by intro ee; exact hnd ee)
    simpa [onceOp] using this
  refine ⟨⟨⟨?_, ?_, hndOnce, ?_, ?_⟩, hNw, ?_, ?_, hinner, ?_, ?_⟩, hc, hreg, ?_⟩
  · rw [hnx]; omega
  · intro e' x hx
    rw [hnx]
    rcases (mem_tableGet_onceOp st e l e' x).mp hx with hx' | ⟨-, rfl⟩
    · have := hids e' x hx'
      omega
    · omega
  · intro q hq
    rw [hwmeq] at hq
    rw [hnx]
    rcases List.mem_append.mp hq with hq' | hq'
    · have := hwm q hq'
      exact ⟨this.1, by omega, this.2.2⟩
    · rcases List.mem_singleton.mp hq' with rfl
      exact ⟨hN, by omega, hl⟩
  · intro c hc'
    rw [hnx]
    have := hcids c (hc ▸ hc')
    omega
  · rw [hnx]; omega
  · rw [wrapperLookup_onceOp_ne st e l w (Ne.symm hwnn)]
    exact hwl
  · rw [hc, hreg]
    exact hcount
  · intro e' hmem
    rcases (mem_tableGet_onceOp st e l e' w).mp hmem with hm | ⟨-, h'⟩
    · exact honly e' hm
    · exact absurd h' hwnn
  · rw [hnx]; omega

theorem InvPres.trans {N w : Nat} {ev : String} {inner : Nat} {st st' st'' : EmitterState}
    (h₁ : InvPres N w ev inner st st') (h₂ : InvPres N w ev inner st' st'') :
    InvPres N w ev inner st st'' :=
  ⟨h₂.1, h₂.2.1.trans h₁.2.1, h₂.2.2.1.trans h₁.2.2.1, le_trans h₁.2.2.2 h₂.2.2.2⟩

/-- Logging an invocation of a listener other than the wrapper preserves the
invariant, count and registration. -/
theorem OnceInv_logCall (N w : Nat) (ev : String) (inner : Nat) (st : EmitterState)
    (x : Nat) (p : Value) (h : OnceInv N w ev inner st) (hxw : x ≠ w) (hxn : x < st.nextId) :
    InvPres N w ev inner st { st with calls := st.calls ++ [(x, p)] } := by
  obtain ⟨⟨hN, hids, hnd, hwm, hcids⟩, hNw, hwn, hwl, hinner, hcount, honly⟩ := h
  have hcnt : countCalls w (st.calls ++ [(x, p)]) = countCalls w st.calls := by
    rw [countCalls_append]
    simp [hxw]
  refine ⟨⟨⟨hN, hids, hnd, hwm, ?_⟩, hNw, hwn, hwl, hinner, ?_, honly⟩, hcnt, rfl, le_refl _⟩
  · intro c hc
    rcases List.mem_append.mp hc with hc' | hc'
    · exact hcids c hc'
    · rcases List.mem_singleton.mp hc' with rfl
      exact hxn
  · rw [hcnt]
    exact hcount

/-- A non-re-entrant listener body (operations `on`/`once`/`off` with
application identifiers) preserves the invariant and performs no
invocations, whatever nested-emission capability is available. -/
theorem runCmdsWith_OnceInv (N w : Nat) (ev : String) (inner : Nat)
    (nested : Option (EmitterState → String → Value →
      EmitterState × Bool × List (Nat × Value))) :
    ∀ cmds st, (∀ c ∈ cmds, cmdIsReEmit c = false) → (∀ c ∈ cmds, cmdId c < N) →
      OnceInv N w ev inner st →
      InvPres N w ev inner st (runCmdsWith nested st cmds).1 := by
  intro cmds
  induction cmds with
  | nil =>
    intro st _ _ h
    exact ⟨h, rfl, rfl, le_refl _⟩
  | cons c rest ih =>
    intro st hnr hbd h
    cases c with
    | addOn e l =>
      have hstep := OnceInv_onOp N w ev inner st e l h (hbd _ (List.mem_cons_self _ _))
      have hstepP : InvPres N w ev inner st (onOp st e l) :=
        ⟨hstep.1, by rw [hstep.2.1], hstep.2.2.1, hstep.2.2.2⟩
      have hrest := ih (onOp st e l) (fun c hc => hnr c (List.mem_cons_of_mem _ hc))
        (fun c hc => hbd c (List.mem_cons_of_mem _ hc)) hstep.1
      simp only [runCmdsWith]
      exact hstepP.trans hrest
    | addOnce e l =>
      have hstep := OnceInv_onceOp N w ev inner st e l h (hbd _ (List.mem_cons_self _ _))
      have hstepP : InvPres N w ev inner st (onceOp st e l) :=
        ⟨hstep.1, by rw [hstep.2.1], hstep.2.2.1, hstep.2.2.2⟩
      have hrest := ih (onceOp st e l) (fun c hc => hnr c (List.mem_cons_of_mem _ hc))
        (fun c hc => hbd c (List.mem_cons_of_mem _ hc)) hstep.1
      simp only [runCmdsWith]
      exact hstepP.trans hrest
    | remove e l =>
      have hlN : l < N := hbd _ (List.mem_cons_self _ _)
      have hlw : l ≠ w := by
        have := h.2.1
        omega
      have hstep := OnceInv_offOp N w ev inner st e l h hlw
      have hstepP : InvPres N w ev inner st (offOp st e l) :=
        ⟨hstep.1, by rw [hstep.2.1], hstep.2.2.1, hstep.2.2.2⟩
      have hrest := ih (offOp st e l) (fun c hc => hnr c (List.mem_cons_of_mem _ hc))
        (fun c hc => hbd c (List.mem_cons_of_mem _ hc)) hstep.1
      simp only [runCmdsWith]
      exact hstepP.trans hrest
    | reEmit e p =>
      have := hnr _ (List.mem_cons_self _ _)
      simp [cmdIsReEmit] at this

theorem wrapperLookup_mem (st : EmitterState) (x : Nat) (e' : String) (i' : Nat)
    (h : wrapperLookup st x = some (e', i')) : (x, e', i') ∈ st.wrapperMeta := by
  unfold wrapperLookup at h
  cases hf : st.wrapperMeta.find? (fun q => q.1 == x) with
  | none =>
    rw [hf] at h
    simp at h
  | some q =>
    rw [hf] at h
    have hmem := List.mem_of_find?_eq_some hf
    rcases q with ⟨a, bc⟩
    have hq1 : a = x := by simpa using List.find?_some hf
    have h' : bc = (e', i') := Option.some.inj h
    subst hq1
    subst h'
    exact hmem

/-- Invoking any listener other than the tracked wrapper preserves the
invariant, count and registration, given that the nested invocation
capability and the body runner do. -/
theorem invokeLWith_ne_pres (env : Env) (N w : Nat) (ev : String) (inner : Nat)
    (ninv : Option (EmitterState → Nat → Value → EmitterState × Bool))
    (runC : EmitterState → List Cmd → EmitterState × Bool)
    (hninv : ∀ inv, ninv = some inv → ∀ x st p, OnceInv N w ev inner st → x ≠ w →
      x < st.nextId → InvPres N w ev inner st (inv st x p).1)
    (hrunC : ∀ st cmds, (∀ c ∈ cmds, cmdIsReEmit c = false) → (∀ c ∈ cmds, cmdId c < N) →
      OnceInv N w ev inner st → InvPres N w ev inner st (runC st cmds).1)
    (hnr : envNonReentrant env) (hb : envBound env N)
    (x : Nat) (st : EmitterState) (p : Value)
    (h : OnceInv N w ev inner st) (hxw : x ≠ w) (hxn : x < st.nextId) :
    InvPres N w ev inner st (invokeLWith ninv runC env st x p).1 := by
  have hlog := OnceInv_logCall N w ev inner st x p h hxw hxn
  unfold invokeLWith
  dsimp only
  cases hwlk : wrapperLookup { st with calls := st.calls ++ [(x, p)] } x with
  | none =>
    refine hlog.trans ?_
    have hpres := hrunC { st with calls := st.calls ++ [(x, p)] } (env x).cmds
      (fun c hc => hnr x c hc) (fun c hc => hb x c hc) hlog.1
    rcases hr : runC { st with calls := st.calls ++ [(x, p)] } (env x).cmds with ⟨st₁, ab⟩
    rw [hr] at hpres
    simpa using hpres
  | some pr =>
    rcases pr with ⟨e', i'⟩
    have hq := wrapperLookup_mem _ _ _ _ hwlk
    have hi'N : i' < N := (hlog.1.1.2.2.2.1 _ hq).2.2
    have hoff := OnceInv_offOp N w ev inner { st with calls := st.calls ++ [(x, p)] } e' x
      hlog.1 hxw
    have hoffP : InvPres N w ev inner { st with calls := st.calls ++ [(x, p)] }
        (offOp { st with calls := st.calls ++ [(x, p)] } e' x) :=
      ⟨hoff.1, by rw [hoff.2.1], hoff.2.2.1, hoff.2.2.2⟩
    cases ninv with
    | none =>
      exact hlog.trans hoffP
    | some inv =>
      have hiw : i' ≠ w := by
        have := h.2.1
        omega
      have hin : i' < (offOp { st with calls := st.calls ++ [(x, p)] } e' x).nextId := by
        rw [(offOp_rest _ _ _).2.2.1]
        have := h.1.1
        simp only
        omega
      have hrec := hninv inv rfl i' _ p hoff.1 hiw hin
      exact hlog.trans (hoffP.trans hrec)

/-- Invoking any non-wrapper listener through the stratified semantics
preserves the invariant, count and registration, at every fuel level. -/
theorem invokeLF_ne (env : Env) (N w : Nat) (ev : String) (inner : Nat)
    (hnr : envNonReentrant env) (hb : envBound env N) :
    ∀ fuel x st p, OnceInv N w ev inner st → x ≠ w → x < st.nextId →
      InvPres N w ev inner st ((levelFns env fuel).invokeLF st x p).1 := by
  intro fuel
  induction fuel with
  | zero =>
    intro x st p h hxw hxn
    exact invokeLWith_ne_pres env N w ev inner none (runCmdsWith none)
      (by intro inv hinv; cases hinv)
      (fun st cmds h1 h2 h3 => runCmdsWith_OnceInv N w ev inner none cmds st h1 h2 h3)
      hnr hb x st p h hxw hxn
  | succ f ih =>
    intro x st p h hxw hxn
    exact invokeLWith_ne_pres env N w ev inner (some (levelFns env f).invokeLF)
      (runCmdsWith (some (levelFns env f).emitOpF))
      (by
        intro inv hinv x' st' p' h' hx'w hx'n
        cases hinv
        exact ih x' st' p' h' hx'w hx'n)
      (fun st cmds h1 h2 h3 => runCmdsWith_OnceInv N w ev inner _ cmds st h1 h2 h3)
      hnr hb x st p h hxw hxn

/-- Invoking the tracked wrapper itself: it logs one call, removes itself
before delegating, and the wrapped listener's body cannot re-register it —
afterwards the count is exactly one and the wrapper is unregistered. -/
theorem invokeLWith_w_pres (env : Env) (N w : Nat) (ev : String) (inner : Nat)
    (ninv : Option (EmitterState → Nat → Value → EmitterState × Bool))
    (runC : EmitterState → List Cmd → EmitterState × Bool)
    (hninv : ∀ inv, ninv = some inv → ∀ x st p, OnceInv N w ev inner st → x ≠ w →
      x < st.nextId → InvPres N w ev inner st (inv st x p).1)
    (st : EmitterState) (p : Value)
    (h : OnceInv N w ev inner st) (hzero : countCalls w st.calls = 0) :
    OnceInv N w ev inner (invokeLWith ninv runC env st w p).1 ∧
    countCalls w (invokeLWith ninv runC env st w p).1.calls = 1 ∧
    wRegistered (invokeLWith ninv runC env st w p).1 ev w = 0 ∧
    st.nextId ≤ (invokeLWith ninv runC env st w p).1.nextId := by
  obtain ⟨⟨hN, hids, hnd, hwm, hcids⟩, hNw, hwn, hwl, hinner, hcount, honly⟩ := h
  have hlogcnt : countCalls w (st.calls ++ [(w, p)]) = 1 := by
    rw [countCalls_append, hzero]
    simp
  have hwlk : wrapperLookup { st with calls := st.calls ++ [(w, p)] } w = some (ev, inner) :=
    hwl
  unfold invokeLWith
  dsimp only
  rw [hwlk]
  have hoffrest := offOp_rest { st with calls := st.calls ++ [(w, p)] } ev w
  have hmemoff : ∀ e y, y ∈ tableGet (offOp { st with calls := st.calls ++ [(w, p)] } ev w).listenerTable e ↔
      y ∈ tableGet st.listenerTable e ∧ (e = ev → y ≠ w) :=
    fun e y => mem_tableGet_offOp { st with calls := st.calls ++ [(w, p)] } ev w e y
  have hreg0 : wRegistered (offOp { st with calls := st.calls ++ [(w, p)] } ev w) ev w = 0 := by
    unfold wRegistered
    rw [if_neg]
    intro hmem
    exact ((hmemoff ev w).mp hmem).2 rfl rfl
  have hcalls1 : countCalls w (offOp { st with calls := st.calls ++ [(w, p)] } ev w).calls = 1 := by
    rw [hoffrest.1]
    exact hlogcnt
  have hinv1 : OnceInv N w ev inner (offOp { st with calls := st.calls ++ [(w, p)] } ev w) := by
    refine ⟨⟨?_, ?_, ?_, ?_, ?_⟩, hNw, ?_, ?_, hinner, ?_, ?_⟩
    · rw [hoffrest.2.2.1]; exact hN
    · intro e x hx
      rw [hoffrest.2.2.1]
      exact hids e x ((hmemoff e x).mp hx).1
    · intro e
      exact nodup_tableGet_offOp _ ev w e (fun ee => hnd ee)
    · intro q hq
      rw [hoffrest.2.2.1]
      exact hwm q (hoffrest.2.1 ▸ hq)
    · intro c hc
      rw [hoffrest.2.2.1]
      rw [hoffrest.1] at hc
      rcases List.mem_append.mp hc with hc' | hc'
      · exact hcids c hc'
      · rcases List.mem_singleton.mp hc' with rfl
        exact hwn
    · rw [hoffrest.2.2.1]; exact hwn
    · rw [wrapperLookup_offOp]
      exact hwl
    · rw [hcalls1, hreg0]
    · intro e hmem
      have hpair := (hmemoff e w).mp hmem
      have he := honly e hpair.1
      exact absurd rfl (hpair.2 he)
  cases ninv with
  | none =>
    refine ⟨hinv1, hcalls1, hreg0, ?_⟩
    rw [hoffrest.2.2.1]
  | some inv =>
    have hiw : inner ≠ w := by omega
    have hin : inner < (offOp { st with calls := st.calls ++ [(w, p)] } ev w).nextId := by
      rw [hoffrest.2.2.1]
      simp only
      omega
    have hrec := hninv inv rfl inner _ p hinv1 hiw hin
    refine ⟨hrec.1, ?_, ?_, ?_⟩
    · rw [hrec.2.1, hcalls1]
    · rw [hrec.2.2.1, hreg0]
    · refine le_trans ?_ hrec.2.2.2
      rw [hoffrest.2.2.1]

/-- Invoking the tracked wrapper through the stratified semantics, at every
fuel level. -/
theorem invokeLF_w (env : Env) (N w : Nat) (ev : String) (inner : Nat)
    (hnr : envNonReentrant env) (hb : envBound env N) :
    ∀ fuel st p, OnceInv N w ev inner st → countCalls w st.calls = 0 →
      OnceInv N w ev inner ((levelFns env fuel).invokeLF st w p).1 ∧
      countCalls w ((levelFns env fuel).invokeLF st w p).1.calls = 1 ∧
      wRegistered ((levelFns env fuel).invokeLF st w p).1 ev w = 0 ∧
      st.nextId ≤ ((levelFns env fuel).invokeLF st w p).1.nextId := by
  intro fuel
  cases fuel with
  | zero =>
    intro st p h hz
    exact invokeLWith_w_pres env N w ev inner none (runCmdsWith none)
      (by intro inv hinv; cases hinv) st p h hz
  | succ f =>
    intro st p h hz
    exact invokeLWith_w_pres env N w ev inner (some (levelFns env f).invokeLF)
      (runCmdsWith (some (levelFns env f).emitOpF))
      (by
        intro inv hinv x st' p' h' hxw hxn
        cases hinv
        exact invokeLF_ne env N w ev inner hnr hb f x st' p' h' hxw hxn)
      st p h hz

/-- The emission loop preserves the invariant: over a duplicate-free
snapshot that contains the wrapper at most once (counted against its call
budget), the state stays invariant, given a single-listener invocation that
does so. -/
theorem emitFanWith_pres (N w : Nat) (ev : String) (inner : Nat)
    (inv : EmitterState → Nat → Value → EmitterState × Bool)
    (hinvne : ∀ x st p, OnceInv N w ev inner st → x ≠ w → x < st.nextId →
      InvPres N w ev inner st (inv st x p).1)
    (hinvw : ∀ st p, OnceInv N w ev inner st → countCalls w st.calls = 0 →
      OnceInv N w ev inner (inv st w p).1 ∧ countCalls w (inv st w p).1.calls = 1 ∧
      wRegistered (inv st w p).1 ev w = 0 ∧ st.nextId ≤ (inv st w p).1.nextId) :
    ∀ pending st p, OnceInv N w ev inner st → pending.Nodup →
      (∀ x ∈ pending, x < st.nextId) →
      countCalls w st.calls + (if w ∈ pending then 1 else 0) ≤ 1 →
      OnceInv N w ev inner (emitFanWith inv st pending p).1 ∧
      st.nextId ≤ (emitFanWith inv st pending p).1.nextId := by
  intro pending
  induction pending with
  | nil =>
    intro st p h _ _ _
    exact ⟨h, le_refl _⟩
  | cons x rest ih =>
    intro st p h hnd hbnd hcnt
    rcases List.nodup_cons.mp hnd with ⟨hxr, hndr⟩
    simp only [emitFanWith]
    by_cases hxw : x = w
    · rw [hxw]
      rw [hxw] at hcnt hxr
      have hz : countCalls w st.calls = 0 := by
        rw [if_pos (List.mem_cons_self _ _)] at hcnt
        omega
      have hw := hinvw st p h hz
      rcases hx : inv st w p with ⟨st₁, b⟩
      rw [hx] at hw
      have hrec := ih st₁ p hw.1 hndr
        (fun y hy => lt_of_lt_of_le (hbnd y (List.mem_cons_of_mem _ hy)) hw.2.2.2)
        (by rw [hw.2.1, if_neg hxr])
      rcases h2 : emitFanWith inv st₁ rest p with ⟨st₂, d⟩
      rw [h2] at hrec
      exact ⟨hrec.1, le_trans hw.2.2.2 hrec.2⟩
    · have hxlt : x < st.nextId := hbnd x (List.mem_cons_self _ _)
      have hne := hinvne x st p h hxw hxlt
      rcases hx : inv st x p with ⟨st₁, b⟩
      rw [hx] at hne
      have hcnt' : countCalls w st₁.calls + (if w ∈ rest then 1 else 0) ≤ 1 := by
        rw [hne.2.1]
        refine le_trans ?_ hcnt
        by_cases hm : w ∈ rest
        · rw [if_pos hm, if_pos (List.mem_cons_of_mem _ hm)]
        · rw [if_neg hm]
          simp only [Nat.add_zero]
          exact Nat.le_add_right _ _
      have hrec := ih st₁ p hne.1 hndr
        (fun y hy => lt_of_lt_of_le (hbnd y (List.mem_cons_of_mem _ hy)) hne.2.2.2) hcnt'
      rcases h2 : emitFanWith inv st₁ rest p with ⟨st₂, d⟩
      rw [h2] at hrec
      exact ⟨hrec.1, le_trans hne.2.2.2 hrec.2⟩

/-- One full emission preserves the invariant. -/
theorem emitOpWith_fan_OnceInv (env : Env) (N w : Nat) (ev : String) (inner : Nat)
    (hnr : envNonReentrant env) (hb : envBound env N) (fuel : Nat)
    (st : EmitterState) (ev' : String) (p : Value) (h : OnceInv N w ev inner st) :
    OnceInv N w ev inner
      ((emitOpWith (emitFanWith ((levelFns env fuel).invokeLF)) st ev' p)).1 := by
  have hcount := h.2.2.2.2.2.1
  have hcountpre :
      countCalls w st.calls + (if w ∈ tableGet st.listenerTable ev' then 1 else 0) ≤ 1 := by
    by_cases hm : w ∈ tableGet st.listenerTable ev'
    · have hev' : ev' = ev := h.2.2.2.2.2.2 ev' hm
      subst hev'
      have hr : wRegistered st ev' w = 1 := by
        unfold wRegistered
        rw [if_pos hm]
      rw [if_pos hm]
      omega
    · rw [if_neg hm]
      omega
  have hfan := emitFanWith_pres N w ev inner ((levelFns env fuel).invokeLF)
    (fun x st p h hxw hxn => invokeLF_ne env N w ev inner hnr hb fuel x st p h hxw hxn)
    (fun st p h hz => invokeLF_w env N w ev inner hnr hb fuel st p h hz)
    (tableGet st.listenerTable ev') st p h (h.1.2.2.1 ev')
    (fun x hx => h.1.2.1 ev' x hx) hcountpre
  unfold emitOpWith
  dsimp only
  rcases hf : emitFanWith ((levelFns env fuel).invokeLF) st (tableGet st.listenerTable ev') p
    with ⟨st₁, direct⟩
  rw [hf] at hfan
  dsimp only
  cases st₁.hook with
  | none => exact hfan.1
  | some hk =>
    cases hk with
    | broadcast s => exact hfan.1
    | raising => exact hfan.1

/-- Bridge to the fuel-indexed interface. -/
theorem emitOpF_OnceInv (env : Env) (N w : Nat) (ev : String) (inner : Nat)
    (hnr : envNonReentrant env) (hb : envBound env N) (fuel : Nat)
    (st : EmitterState) (ev' : String) (p : Value) (h : OnceInv N w ev inner st) :
    OnceInv N w ev inner ((levelFns env fuel).emitOpF st ev' p).1 := by
  cases fuel with
  | zero => exact emitOpWith_fan_OnceInv env N w ev inner hnr hb 0 st ev' p h
  | succ f => exact emitOpWith_fan_OnceInv env N w ev inner hnr hb (f + 1) st ev' p h

/-- Every sequence of top-level operations with application identifiers
preserves the invariant. -/
theorem runEOps_OnceInv (env : Env) (N w : Nat) (ev : String) (inner : Nat)
    (hnr : envNonReentrant env) (hb : envBound env N) (fuel : Nat) :
    ∀ ops st, opsBound N ops → OnceInv N w ev inner st →
      OnceInv N w ev inner (runEOps fuel env st ops) := by
  intro ops
  induction ops with
  | nil =>
    intro st _ h
    exact h
  | cons op rest ih =>
    intro st hb' h
    have hop : eopBound N op := hb' op (List.mem_cons_self _ _)
    have hrest : opsBound N rest := fun o ho => hb' o (List.mem_cons_of_mem _ ho)
    simp only [runEOps]
    apply ih _ hrest
    cases op with
    | eOn e l => exact (OnceInv_onOp N w ev inner st e l h hop).1
    | eOnce e l => exact (OnceInv_onceOp N w ev inner st e l h hop).1
    | eOff e l =>
      have hlw : l ≠ w := by
        have h1 := h.2.1
        have h2 : l < N := hop
        omega
      exact (OnceInv_offOp N w ev inner st e l h hlw).1
    | eEmit e p => exact emitOpF_OnceInv env N w ev inner hnr hb fuel st e p h
    | eSetHook hk => exact h

/-- Freshly registering the wrapper establishes the invariant. -/
theorem OnceInv_init (N : Nat) (st : EmitterState) (ev : String) (inner : Nat)
    (hw : emitterWf N st) (hinner : inner < N) :
    OnceInv N st.nextId ev inner (onceOp st ev inner) := by
  obtain ⟨hN, hids, hnd, hwm, hcids⟩ := hw
  have hrest := onceOp_rest st ev inner
  have hnone : st.wrapperMeta.find? (fun q => q.1 == st.nextId) = none := by
    rw [List.find?_eq_none]
    intro q hq
    have := (hwm q hq).2.1
    simp only [beq_iff_eq]
    omega
  have hwlk : wrapperLookup (onceOp st ev inner) st.nextId = some (ev, inner) := by
    unfold wrapperLookup
    rw [hrest.2.1, List.find?_append, hnone]
    simp [List.find?]
  have hc0 : countCalls st.nextId (onceOp st ev inner).calls = 0 := by
    rw [hrest.1]
    exact countCalls_zero _ _ hcids
  have hr1 : wRegistered (onceOp st ev inner) ev st.nextId = 1 := by
    unfold wRegistered
    rw [if_pos ((mem_tableGet_onceOp st ev inner ev st.nextId).mpr (Or.inr ⟨rfl, rfl⟩))]
  have hndOnce : ∀ e', (tableGet (onceOp st ev inner).listenerTable e').Nodup := by
    intro e'
    have := nodup_tableGet_onOp
      { st with nextId := st.nextId + 1,
                wrapperMeta := st.wrapperMeta ++ [(st.nextId, ev, inner)] }
      ev st.nextId e' (by intro ee; exact hnd ee)
    simpa [onceOp] using this
  refine ⟨⟨?_, ?_, hndOnce, ?_, ?_⟩, hN, ?_, hwlk, hinner, ?_, ?_⟩
  · rw [hrest.2.2.1]; omega
  · intro e x hx
    rw [hrest.2.2.1]
    rcases (mem_tableGet_onceOp st ev inner e x).mp hx with hx' | ⟨-, rfl⟩
    · have := hids e x hx'
      omega
    · omega
  · intro q hq
    rw [hrest.2.1] at hq
    rw [hrest.2.2.1]
    rcases List.mem_append.mp hq with hq' | hq'
    · have := hwm q hq'
      exact ⟨this.1, by omega, this.2.2⟩
    · rcases List.mem_singleton.mp hq' with rfl
      exact ⟨hN, by omega, hinner⟩
  · intro c hc
    rw [hrest.1] at hc
    rw [hrest.2.2.1]
    have := hcids c hc
    omega
  · rw [hrest.2.2.1]; omega
  · rw [hc0, hr1]
  · intro e hm
    rcases (mem_tableGet_onceOp st ev inner e st.nextId).mp hm with hm' | ⟨he, -⟩
    · exact absurd (hids e _ hm') (lt_irrefl _)
    · exact he

/-- Claim C7 fails as stated: the once-wrapper keeps no "already called"
flag, so when a *sibling* listener re-entrantly emits the same event during
the fan-out, the snapshot of the outer pass still holds the wrapper after
the nested pass has run it — the once-registered listener fires twice.
Here listener 0 (registered first via `once`, wrapper 2) re-emits "x";
listener 1's `once` registration (wrapper 3) is invoked by the nested pass
and again by the outer pass, and the wrapped listener 1 runs twice. -/
theorem C7_counterexample :
    countCalls 3 ((emitOp 3
      (fun l => if l == 0 then ⟨[Cmd.reEmit "x" Value.unit], false⟩ else ⟨[], false⟩)
      (onceOp (onceOp (initEmitter 2) "x" 0) "x" 1) "x" Value.unit).1.calls) = 2 ∧
    countCalls 1 ((emitOp 3
      (fun l => if l == 0 then ⟨[Cmd.reEmit "x" Value.unit], false⟩ else ⟨[], false⟩)
      (onceOp (onceOp (initEmitter 2) "x" 0) "x" 1) "x" Value.unit).1.calls) = 2 :=
  ⟨by decide, by decide⟩

/-- Claim C7 (amended): a listener registered via `once` is invoked at most
once over any subsequent sequence of operations — including further `on`,
`once`, `off` registrations and emissions with arbitrary fuel — provided no
listener body re-enters `emit`; moreover across two plain emissions it is
invoked exactly once, and a re-entrant emission performed during the
wrapped listener's own execution still cannot fire it twice (it has already
removed itself).  Only a sibling listener's re-entrant emission (the
counterexample) can double-fire it. -/
theorem C7_once_at_most_once :
    (∀ env N st ev inner fuel ops,
      envNonReentrant env → envBound env N → opsBound N ops → emitterWf N st →
      inner < N →
      countCalls st.nextId (runEOps fuel env (onceOp st ev inner) ops).calls ≤ 1) ∧
    (countCalls 5 ((runEOps 4 (fun _ => ⟨[], false⟩) (onceOp (initEmitter 5) "x" 0)
      [.eEmit "x" Value.unit, .eEmit "x" Value.unit]).calls) = 1) ∧
    (countCalls 7 ((emitOp 4
      (fun l => if l == 0 then ⟨[Cmd.reEmit "x" Value.unit], false⟩ else ⟨[], false⟩)
      (onceOp (initEmitter 7) "x" 0) "x" Value.unit).1.calls) = 1) := by
  refine ⟨?_, by decide, by decide⟩
  intro env N st ev inner fuel ops hnr hb hops hwf hinner
  have hinit := OnceInv_init N st ev inner hwf hinner
  have hfold := runEOps_OnceInv env N st.nextId ev inner hnr hb fuel ops
    (onceOp st ev inner) hops hinit
  have hcnt := hfold.2.2.2.2.2.1
  omega

/-- Witness for the amended claim C7 at concrete inputs: one plain emission
after a fresh `once` registration fires the wrapper at most once. -/
theorem C7_once_at_most_once_witness :
    countCalls 1 ((runEOps 2 (fun _ => ⟨[], false⟩) (onceOp (initEmitter 1) "x" 0)
      [EOp.eEmit "x" Value.unit]).calls) ≤ 1 := by
  have hwf : emitterWf 1 (initEmitter 1) := by
    refine ⟨le_refl 1, ?_, ?_, ?_, ?_⟩
    · intro e x hx
      simp [tableGet, initEmitter, List.find?] at hx
    · intro e
      simp [tableGet, initEmitter, List.find?]
    · intro q hq
      exact absurd hq (List.not_mem_nil q)
    · intro c hc
      exact absurd hc (List.not_mem_nil c)
  have h := C7_once_at_most_once.1 (fun _ => ⟨[], false⟩) 1 (initEmitter 1) "x" 0 2
    [EOp.eEmit "x" Value.unit]
    (fun l c hc => absurd hc (List.not_mem_nil c))
    (fun l c hc => absurd hc (List.not_mem_nil c))
    (fun op hop => by
      rcases List.mem_singleton.mp hop with rfl
      trivial)
    hwf (by omega)
  exact h

/-! ### Proxy bookkeeping lemmas -/

theorem find?_tableSet_self (t : List (String × List Nat)) (ev : String) (ids : List Nat) :
    (tableSet t ev ids).find? (fun q => q.1 == ev) = some (ev, ids) := by
  induction t with
  | nil => simp [tableSet, List.find?]
  | cons kv rest ih =>
    rcases kv with ⟨k, v⟩
    by_cases h : k = ev
    · subst h
      simp [tableSet, List.find?]
    · have h' : (k == ev) = false := beq_false_of_ne h
      simp only [tableSet, h', if_false]
      simpa [List.find?_cons, h'] using ih

theorem find?_tableSet_ne (t : List (String × List Nat)) (ev e : String) (ids : List Nat)
    (h : e ≠ ev) :
    (tableSet t ev ids).find? (fun q => q.1 == e) = t.find? (fun q => q.1 == e) := by
  have hve : (ev == e) = false := beq_false_of_ne (Ne.symm h)
  induction t with
  | nil => simp [tableSet, List.find?_cons, hve]
  | cons kv rest ih =>
    rcases kv with ⟨k, v⟩
    by_cases hk : k = ev
    · subst hk
      simp [tableSet, List.find?_cons, hve]
    · have hk' : (k == ev) = false := beq_false_of_ne hk
      by_cases hke : k = e
      · subst hke
        simp [tableSet, List.find?_cons, hk']
      · have hke' : (k == e) = false := beq_false_of_ne hke
        simp only [tableSet, hk', if_false]
        simpa [List.find?_cons, hke'] using ih

theorem find?_tableRemoveKey_self (t : List (String × List Nat)) (ev : String) :
    (tableRemoveKey t ev).find? (fun q => q.1 == ev) = none := by
  rw [List.find?_eq_none]
  intro q hq
  rcases List.mem_filter.mp hq with ⟨-, hpq⟩
  simpa [bne] using hpq

theorem find?_tableRemoveKey_ne (t : List (String × List Nat)) (ev e : String) (h : e ≠ ev) :
    (tableRemoveKey t ev).find? (fun q => q.1 == e) = t.find? (fun q => q.1 == e) := by
  induction t with
  | nil => rfl
  | cons kv rest ih =>
    rcases kv with ⟨k, v⟩
    by_cases hk : k = ev
    · subst hk
      have h' : (k == e) = false := beq_false_of_ne (fun hke => h (hke ▸ rfl))
      have hb : (k != k) = false := by simp
      simpa [tableRemoveKey, List.filter_cons, hb, List.find?_cons, h'] using ih
    · have hb : (k != ev) = true := by simp [bne, hk]
      by_cases hke : k = e
      · subst hke
        simp [tableRemoveKey, List.filter_cons, hb, List.find?_cons]
      · have hke' : (k == e) = false := beq_false_of_ne hke
        simpa [tableRemoveKey, List.filter_cons, hb, List.find?_cons, hke'] using ih

theorem findPair_filterKey_self (l : List (String × Nat)) (e : String) :
    (l.filter (fun q => q.1 != e)).find? (fun q => q.1 == e) = none := by
  rw [List.find?_eq_none]
  intro q hq
  rcases List.mem_filter.mp hq with ⟨-, hpq⟩
  simpa [bne] using hpq

theorem findPair_filterKey_ne (l : List (String × Nat)) (ev e : String) (h : e ≠ ev) :
    (l.filter (fun q => q.1 != ev)).find? (fun q => q.1 == e) =
      l.find? (fun q => q.1 == e) := by
  induction l with
  | nil => rfl
  | cons kv rest ih =>
    rcases kv with ⟨k, v⟩
    by_cases hk : k = ev
    · subst hk
      have h' : (k == e) = false := beq_false_of_ne (fun hke => h (hke ▸ rfl))
      have hb : (k != k) = false := by simp
      simpa [List.filter_cons, hb, List.find?_cons, h'] using ih
    · have hb : (k != ev) = true := by simp [bne, hk]
      by_cases hke : k = e
      · subst hke
        simp [List.filter_cons, hb, List.find?_cons]
      · have hke' : (k == e) = false := beq_false_of_ne hke
        simpa [List.filter_cons, hb, List.find?_cons, hke'] using ih

theorem countKey_append_one (l : List (String × Nat)) (ev : String) (tok : Nat) (e : String) :
    ((l ++ [(ev, tok)]).filter (fun q => q.1 == e)).length =
      (l.filter (fun q => q.1 == e)).length + (if ev = e then 1 else 0) := by
  by_cases h : ev = e <;> simp [List.filter_append, h, beq_false_of_ne, List.length_append]

theorem filter_filter_of_imp {α : Type} (p q : α → Bool) (l : List α)
    (hpq : ∀ a, p a = true → q a = true) : (l.filter q).filter p = l.filter p := by
  induction l with
  | nil => rfl
  | cons a rest ih =>
    cases hq : q a with
    | false =>
      cases hp : p a with
      | false => simp [List.filter_cons, hp, hq, ih]
      | true => exact absurd (hpq a hp) (by simp [hq])
    | true =>
      cases hp : p a with
      | false => simp [List.filter_cons, hp, hq, ih]
      | true => simp [List.filter_cons, hp, hq, ih]

theorem countKey_filterTok_ne (l : List (String × Nat)) (ev : String) (tok : Nat)
    (e : String) (h : e ≠ ev) :
    ((l.filter (fun q => !(q.1 == ev && q.2 == tok))).filter (fun q => q.1 == e)).length =
      (l.filter (fun q => q.1 == e)).length := by
  rw [filter_filter_of_imp]
  intro a ha
  have hae : a.1 = e := by simpa using ha
  have h1 : (a.1 == ev) = false := beq_false_of_ne (hae ▸ h)
  simp [h1]

theorem countKey_filterTok_self (l : List (String × Nat)) (ev : String) (tok : Nat)
    (h : ∀ q ∈ l, q.1 = ev → q.2 = tok) :
    ((l.filter (fun q => !(q.1 == ev && q.2 == tok))).filter (fun q => q.1 == ev)).length
      = 0 := by
  simp only [List.length_eq_zero]
  rw [List.filter_eq_nil_iff]
  intro q hq
  rcases List.mem_filter.mp hq with ⟨hmem, hpred⟩
  intro hkey
  have hk : q.1 = ev := by simpa using hkey
  have ht : q.2 = tok := h q hmem hk
  simp [hk, ht] at hpred

theorem setAdd_ne_nil (xs : List Nat) (x : Nat) : setAdd xs x ≠ [] := by
  by_cases hx : x ∈ xs
  · simp only [setAdd, hx, if_true]
    intro hnil
    rw [hnil] at hx
    exact List.not_mem_nil x hx
  · simp [setAdd, hx]

/-- `ensureRemoteSubscription` repairs the invariant for an event whose
listener entry exists: either the subscription is already there, or exactly
one is created with a fresh token. -/
theorem PInv_ensure (st : ProxyState) (ev : String)
    (h1 : ∀ e, hasListenerKey st e = true → tableGet st.listenersByEvent e ≠ [])
    (h2 : ∀ e, e ≠ ev → (subTok st e).isSome = hasListenerKey st e)
    (h2ev : hasListenerKey st ev = true)
    (h3 : ∀ e, remoteCount st e = if (subTok st e).isSome then 1 else 0)
    (h4 : ∀ e tok, (e, tok) ∈ st.activeRemote → subTok st e = some tok)
    (h5 : ∀ e tok, subTok st e = some tok → tok < st.nextToken) :
    PInv (ensureRemoteSubscription st ev) := by
  unfold ensureRemoteSubscription
  cases hg : (st.unsubscribeByEvent.find? (fun q => q.1 == ev)).isSome with
  | true =>
    rw [if_pos rfl]
    refine ⟨h1, ?_, h3, h4, h5⟩
    intro e
    by_cases he : e = ev
    · subst he
      rw [h2ev]
      simp [subTok, Option.isSome_map, hg]
    · exact h2 e he
  | false =>
    rw [if_neg (by simp)]
    dsimp only
    have hnone : st.unsubscribeByEvent.find? (fun q => q.1 == ev) = none := by
      cases hf : st.unsubscribeByEvent.find? (fun q => q.1 == ev) with
      | none => rfl
      | some q => rw [hf] at hg; simp at hg
    have hsubev : subTok st ev = none := by
      simp [subTok, hnone]
    have hsub₂ : ∀ e, subTok
        { st with
            activeRemote := st.activeRemote ++ [(ev, st.nextToken)],
            unsubscribeByEvent := st.unsubscribeByEvent ++ [(ev, st.nextToken)],
            nextToken := st.nextToken + 1 } e =
        if e = ev then some st.nextToken else subTok st e := by
      intro e
      by_cases he : e = ev
      · subst he
        simp [subTok, List.find?_append, hnone, List.find?]
      · have hne : (ev == e) = false := beq_false_of_ne (Ne.symm he)
        simp only [subTok, List.find?_append]
        cases hf : st.unsubscribeByEvent.find? (fun q => q.1 == e) with
        | none => simp [he, hf, List.find?, hne, subTok]
        | some q => simp [he, hf, subTok]
    refine ⟨h1, ?_, ?_, ?_, ?_⟩
    · intro e
      rw [hsub₂ e]
      by_cases he : e = ev
      · subst he
        simp only [if_pos rfl, Option.isSome_some]
        exact h2ev.symm
      · simp only [he, if_false]
        exact h2 e he
    · intro e
      show ((st.activeRemote ++ [(ev, st.nextToken)]).filter (fun q => q.1 == e)).length = _
      rw [countKey_append_one, hsub₂ e]
      by_cases he : e = ev
      · subst he
        have hcnt0 : remoteCount st e = 0 := by
          rw [h3 e, hsubev]
          simp
        have hc : (st.activeRemote.filter (fun q => q.1 == e)).length = 0 := hcnt0
        simp only [if_pos rfl, Option.isSome_some, if_true]
        omega
      · have hne : ev ≠ e := Ne.symm he
        rw [if_neg hne, if_neg he]
        simp only [Nat.add_zero]
        simpa [remoteCount] using h3 e
    · intro e tok hmem
      rcases List.mem_append.mp hmem with hm | hm
      · have hold := h4 e tok hm
        have hene : e ≠ ev := by
          intro hcontra
          rw [hcontra, hsubev] at hold
          cases hold
        rw [hsub₂ e, if_neg hene]
        exact hold
      · have h' := List.mem_singleton.mp hm
        have he1 : e = ev := congrArg Prod.fst h'
        have he2 : tok = st.nextToken := congrArg Prod.snd h'
        rw [hsub₂ e, if_pos he1, he2]
    · intro e tok hstok
      rw [hsub₂ e] at hstok
      by_cases he : e = ev
      · rw [if_pos he] at hstok
        rw [Option.some.injEq] at hstok
        show tok < st.nextToken + 1
        omega
      · rw [if_neg he] at hstok
        have := h5 e tok hstok
        show tok < st.nextToken + 1
        omega

/-- The proxy's `on` preserves the invariant. -/
theorem PInv_proxyOn (st : ProxyState) (ev : String) (l : Nat) (h : PInv st) :
    PInv (proxyOn st ev l) := by
  obtain ⟨h1, h2, h3, h4, h5⟩ := h
  unfold proxyOn
  dsimp only
  apply PInv_ensure
  · intro e hkey
    by_cases he : e = ev
    · subst he
      rw [tableGet_tableSet_self]
      exact setAdd_ne_nil _ _
    · rw [tableGet_tableSet_ne _ _ _ _ he]
      apply h1
      simp only [hasListenerKey] at hkey ⊢
      rw [find?_tableSet_ne _ _ _ _ he] at hkey
      exact hkey
  · intro e he
    simp only [subTok, hasListenerKey] at h2 ⊢
    rw [find?_tableSet_ne _ _ _ _ he]
    exact h2 e
  · simp [hasListenerKey, find?_tableSet_self]
  · exact h3
  · exact h4
  · exact h5

theorem PInv_off_teardown (st : ProxyState) (ev : String) (tok : Nat)
    (hsub : subTok st ev = some tok) (h : PInv st) :
    PInv { listenersByEvent := tableRemoveKey st.listenersByEvent ev,
           unsubscribeByEvent := st.unsubscribeByEvent.filter (fun q => q.1 != ev),
           activeRemote := st.activeRemote.filter (fun q => !(q.1 == ev && q.2 == tok)),
           wrapperMeta := st.wrapperMeta, nextId := st.nextId,
           nextToken := st.nextToken } := by
  obtain ⟨h1, h2, h3, h4, h5⟩ := h
  refine ⟨?_, ?_, ?_, ?_, ?_⟩
  · intro e hke
    by_cases he : e = ev
    · subst he
      simp only [hasListenerKey] at hke
      rw [find?_tableRemoveKey_self] at hke
      cases hke
    · simp only [hasListenerKey] at hke
      rw [find?_tableRemoveKey_ne _ _ _ he] at hke
      show tableGet (tableRemoveKey st.listenersByEvent ev) e ≠ []
      rw [tableGet_tableRemoveKey_ne _ _ _ he]
      exact h1 e hke
  · intro e
    by_cases he : e = ev
    · subst he
      simp only [subTok, hasListenerKey]
      rw [findPair_filterKey_self st.unsubscribeByEvent e,
        find?_tableRemoveKey_self]
      rfl
    · simp only [subTok, hasListenerKey]
      rw [findPair_filterKey_ne st.unsubscribeByEvent ev e he,
        find?_tableRemoveKey_ne _ _ _ he]
      exact h2 e
  · intro e
    by_cases he : e = ev
    · subst he
      simp only [remoteCount, subTok]
      rw [countKey_filterTok_self]
      · simp [findPair_filterKey_self st.unsubscribeByEvent e]
      · intro q hq hq1
        have hh := h4 q.1 q.2 hq
        rw [hq1, hsub] at hh
        exact (Option.some.inj hh).symm
    · simp only [remoteCount, subTok]
      rw [countKey_filterTok_ne st.activeRemote ev tok e he]
      simp only [findPair_filterKey_ne st.unsubscribeByEvent ev e he]
      have h3e := h3 e
      simp only [remoteCount, subTok] at h3e
      exact h3e
  · intro e tok' hmem
    rcases List.mem_filter.mp hmem with ⟨hm, hpred⟩
    have hold := h4 e tok' hm
    by_cases he : e = ev
    · exfalso
      rw [he, hsub] at hold
      have htok : tok' = tok := (Option.some.inj hold).symm
      rw [he, htok] at hpred
      simp at hpred
    · simp only [subTok]
      rw [findPair_filterKey_ne st.unsubscribeByEvent ev e he]
      exact hold
  · intro e tok' hstok
    by_cases he : e = ev
    · exfalso
      simp only [subTok] at hstok
      rw [he, findPair_filterKey_self st.unsubscribeByEvent ev] at hstok
      cases hstok
    · simp only [subTok] at hstok
      rw [findPair_filterKey_ne st.unsubscribeByEvent ev e he] at hstok
      exact h5 e tok' hstok

/-- The proxy's `off` preserves the invariant: when the listener set stays
non-empty only the set shrinks; when it empties, the stored unsubscribe
function exists (by the invariant), is removed and called, taking the
transport subscription down with it. -/
theorem PInv_proxyOff (st : ProxyState) (ev : String) (l : Nat) (h : PInv st) :
    PInv (proxyOff st ev l) := by
  obtain ⟨h1, h2, h3, h4, h5⟩ := h
  unfold proxyOff
  cases hf : st.listenersByEvent.find? (fun q => q.1 == ev) with
  | none => exact ⟨h1, h2, h3, h4, h5⟩
  | some kv =>
    rcases kv with ⟨k, ids⟩
    have hk : k = ev := by simpa using List.find?_some hf
    have hkey : hasListenerKey st ev = true := by
      simp [hasListenerKey, hk ▸ hf]
    dsimp only
    split
    next hemp =>
      cases hfu : st.unsubscribeByEvent.find? (fun q => q.1 == ev) with
      | none =>
        exfalso
        have h2ev := h2 ev
        rw [hkey] at h2ev
        simp [subTok, hfu] at h2ev
      | some qv =>
        rcases qv with ⟨k2, tok⟩
        have hsubk : subTok st ev = some tok := by
          simp [subTok, hfu]
        exact PInv_off_teardown st ev tok hsubk ⟨h1, h2, h3, h4, h5⟩
    next hemp =>
      have hne : ids.filter (fun x => x ≠ l) ≠ [] := by
        intro hnil
        rw [hnil] at hemp
        exact hemp rfl
      refine ⟨?_, ?_, h3, h4, h5⟩
      · intro e hke
        by_cases he : e = ev
        · subst he
          rw [tableGet_tableSet_self]
          exact hne
        · rw [tableGet_tableSet_ne _ _ _ _ he]
          apply h1
          simp only [hasListenerKey] at hke
          rw [find?_tableSet_ne _ _ _ _ he] at hke
          simpa [hasListenerKey] using hke
      · intro e
        by_cases he : e = ev
        · subst he
          have h2e := h2 e
          rw [hkey] at h2e
          simp only [hasListenerKey, find?_tableSet_self, Option.isSome_some]
          exact h2e
        · simp only [hasListenerKey]
          rw [find?_tableSet_ne _ _ _ _ he]
          simpa [hasListenerKey] using h2 e

/-- The proxy's `once` preserves the invariant: it only allocates wrapper
metadata, which the invariant does not mention, and then delegates to
`on`. -/
theorem PInv_proxyOnce (st : ProxyState) (ev : String) (inner : Nat) (h : PInv st) :
    PInv (proxyOnce st ev inner) := by
  unfold proxyOnce
  apply PInv_proxyOn
  obtain ⟨h1, h2, h3, h4, h5⟩ := h
  exact ⟨h1, h2, h3, h4, h5⟩

theorem PInv_runPCmds (cmds : List PCmd) (st : ProxyState) (h : PInv st) :
    PInv (runPCmds st cmds) := by
  induction cmds generalizing st with
  | nil => exact h
  | cons c rest ih =>
    cases c with
    | pOn ev l => exact ih _ (PInv_proxyOn st ev l h)
    | pOnce ev l => exact ih _ (PInv_proxyOnce st ev l h)
    | pOff ev l => exact ih _ (PInv_proxyOff st ev l h)

theorem PInv_invokePListener (penv : PEnv) (st : ProxyState) (l : Nat)
    (h : PInv st) : PInv (invokePListener penv st l) := by
  unfold invokePListener
  cases (st.wrapperMeta.find? (fun q => q.1 == l)).map (fun q => q.2) with
  | none => exact PInv_runPCmds _ st h
  | some p =>
    rcases p with ⟨ev, inner⟩
    exact PInv_runPCmds _ _ (PInv_proxyOff st ev l h)

theorem PInv_deliverFan (penv : PEnv) (pending : List Nat) (st : ProxyState)
    (h : PInv st) : PInv (deliverFan penv st pending) := by
  induction pending generalizing st with
  | nil => exact h
  | cons l rest ih => exact ih _ (PInv_invokePListener penv st l h)

theorem PInv_deliver (penv : PEnv) (st : ProxyState) (ev : String)
    (h : PInv st) : PInv (deliver penv st ev) := by
  unfold deliver
  split
  · cases hf : st.listenersByEvent.find? (fun q => q.1 == ev) with
    | none => exact h
    | some kv =>
      rcases kv with ⟨k, ids⟩
      exact PInv_deliverFan penv ids st h
  · exact h

theorem PInv_initProxy (n : Nat) : PInv (initProxy n) := by
  refine ⟨?_, ?_, ?_, ?_, ?_⟩
  · intro e hke
    simp [initProxy, hasListenerKey] at hke
  · intro e
    simp [initProxy, subTok, hasListenerKey]
  · intro e
    simp [initProxy, remoteCount, subTok]
  · intro e tok hmem
    simp [initProxy] at hmem
  · intro e tok hstok
    simp [initProxy, subTok] at hstok

theorem PInv_runPOps (penv : PEnv) (ops : List POp) (st : ProxyState)
    (h : PInv st) : PInv (runPOps penv st ops) := by
  induction ops generalizing st with
  | nil => exact h
  | cons op rest ih =>
    cases op with
    | pon ev l => exact ih _ (PInv_proxyOn st ev l h)
    | ponce ev l => exact ih _ (PInv_proxyOnce st ev l h)
    | poff ev l => exact ih _ (PInv_proxyOff st ev l h)
    | pdeliver ev => exact ih _ (PInv_deliver penv st ev h)

theorem hasListenerKey_of_tableGet_ne_nil (st : ProxyState) (e : String)
    (h : tableGet st.listenersByEvent e ≠ []) : hasListenerKey st e = true := by
  unfold tableGet at h
  unfold hasListenerKey
  cases hf : st.listenersByEvent.find? (fun q => q.1 == e) with
  | none => rw [hf] at h; exact absurd rfl h
  | some kv => rfl

/-- Claim C8: starting from a fresh resolved proxy, after any sequence of
on/once/off calls and event deliveries (whose listener bodies may themselves
re-enter on/once/off), every event name has at most one active transport
subscription, and a subscription for the event exists exactly when the
proxy's local listener set for it is non-empty. -/
theorem C8_subscription_invariant (penv : PEnv) (n : Nat) (ops : List POp)
    (e : String) :
    remoteCount (runPOps penv (initProxy n) ops) e ≤ 1 ∧
      ((∃ tok, (e, tok) ∈ (runPOps penv (initProxy n) ops).activeRemote) ↔
        tableGet (runPOps penv (initProxy n) ops).listenersByEvent e ≠ []) := by
  obtain ⟨h1, h2, h3, h4, h5⟩ := PInv_runPOps penv ops (initProxy n) (PInv_initProxy n)
  refine ⟨?_, ?_, ?_⟩
  · rw [h3 e]
    split
    · exact Nat.le_refl 1
    · exact Nat.zero_le 1
  · rintro ⟨tok, hmem⟩
    have hsub := h4 e tok hmem
    have hkey : hasListenerKey (runPOps penv (initProxy n) ops) e = true := by
      rw [← h2 e, hsub]
      rfl
    exact h1 e hkey
  · intro hne
    have hkey := hasListenerKey_of_tableGet_ne_nil _ e hne
    have hiss : (subTok (runPOps penv (initProxy n) ops) e).isSome = true := by
      rw [h2 e]
      exact hkey
    have hcount : remoteCount (runPOps penv (initProxy n) ops) e = 1 := by
      rw [h3 e, if_pos hiss]
    have hfilter :
        (runPOps penv (initProxy n) ops).activeRemote.filter (fun q => q.1 == e) ≠ [] := by
      intro hnil
      unfold remoteCount at hcount
      rw [hnil] at hcount
      cases hcount
    rcases List.exists_mem_of_ne_nil _ hfilter with ⟨q, hq⟩
    rcases List.mem_filter.mp hq with ⟨hm, hpq⟩
    have hq1 : q.1 = e := by simpa using hpq
    exact ⟨q.2, by rw [← hq1]; exact hm⟩

end ElectronIPC
